import Mathlib

/-!
Verification of the sigdig Huffman codec (src/codecs/huffman.rs, src/util.rs).

The embedding models bytes as `Nat` (always < 256 where produced by the code),
u64 counters as `Nat` (the code only increments and compares them; comparison
and big-endian serialization agree with u64 for values < 2^64), and the
`BitQueue` (a `VecDeque<bool>`) as a `List Bool` whose head is the deque's
front.  Fallible operations (`Result<_, CodecError>`) are modelled with
`Except CodecError`.
-/

namespace Sigdig

/-- `CodecError` from src/codecs/mod.rs.  The payloads (`io::Error`) carry no
information relevant to the codec logic, so they are dropped. -/
inductive CodecError where
  | ioError : CodecError
  | readError : CodecError
  | writeError : CodecError
deriving Repr, DecidableEq

/-! ## BitQueue (src/util.rs)

A `BitQueue` wraps a `VecDeque<bool>`; we represent the deque as a
`List Bool` with the list head being the deque front. -/

/-- The 8 bits of one byte, most significant first: `byte & (0b10000000 >> i) != 0`
for `i = 0..8` (from `bytes_to_bools`). -/
def byteBits (b : Nat) : List Bool :=
  (List.range 8).map fun i => (b &&& (128 >>> i)) != 0

/-- `bytes_to_bools`: expand each byte MSB-first. -/
def bytesToBools (bytes : List Nat) : List Bool :=
  bytes.flatMap byteBits

/-- One output byte of `bools_to_bytes`: OR together `0b10000000 >> j` for each
set bit at position `j` of the (at most 8 element) chunk. -/
def chunkByte (bs : List Bool) : Nat :=
  (bs.enum).foldl (fun cur jb => if jb.2 then cur ||| (128 >>> jb.1) else cur) 0

/-- `bools_to_bytes`: pack bits into bytes 8 at a time; a final chunk of
fewer than 8 bits still yields one byte, with the missing low bits left 0
(the function "will return padding of 0 if necessary"). -/
def boolsToBytes : List Bool → List Nat
  | [] => []
  | b0 :: b1 :: b2 :: b3 :: b4 :: b5 :: b6 :: b7 :: rest =>
    chunkByte [b0, b1, b2, b3, b4, b5, b6, b7] :: boolsToBytes rest
  | bs => [chunkByte bs]

/-- `BitQueue::as_vec`: iterate the deque front-to-back, then reverse. -/
def asVec (q : List Bool) : List Bool := q.reverse

/-- `BitQueue::partial_to_u8s(num_bytes)`: clamp `num_bytes` to `len / 8`,
then pack the first `num_bytes * 8` entries of `as_vec`. -/
def takeU8s (q : List Bool) (numBytes : Nat) : List Nat :=
  let n := min numBytes (q.length / 8)
  if n = 0 then [] else boolsToBytes ((asVec q).take (n * 8))

/-- `BitQueue::to_u8s`: `partial_to_u8s(len / 8 + 1)` (the clamp in
`partial_to_u8s` cuts this down to `len / 8`, silently dropping any final
partial byte). -/
def toU8s (q : List Bool) : List Nat :=
  takeU8s q (q.length / 8 + 1)

/-- `BitQueue::push_back_u8s`: push the bits of `bytes_to_bools(bytes)` onto
the back of the deque in **reversed** order (`bits.iter().rev()`). -/
def pushBackU8s (q : List Bool) (bytes : List Nat) : List Bool :=
  q ++ (bytesToBools bytes).reverse

/-! ## Frequency table serialization (HuffmanBuilder / HuffmanDecoder) -/

/-- `u64::to_be_bytes` of a counter (exact for values < 2^64, which is all the
code can produce since counters only ever get incremented from 0). -/
def u64be (n : Nat) : List Nat :=
  (List.range 8).map fun j => n / 2 ^ (8 * (7 - j)) % 256

/-- The 2048-byte header: `builder.serialize()` followed by
`byte_vec.extend(&component.to_be_bytes())` for each of the 256 counters. -/
def serializeBytes (counts : Nat → Nat) : List Nat :=
  (List.range 256).flatMap fun i => u64be (counts i)

/-- The decoder's header parse (HuffmanDecoder::process, AwaitingHeader arm):
`val |= (components[j] as u64) << (7 - j)` for `j = 0..8`, where
`components = counts_header[i*8 .. i*8+8]`.  Note the shift distance is
`7 - j` bits, not `8 * (7 - j)`. -/
def parseCounts (header : List Nat) : Nat → Nat := fun i =>
  (List.range 8).foldl (fun val j => val ||| (header.getD (i * 8 + j) 0 <<< (7 - j))) 0

/-! ## Huffman tree (src/codecs/huffman.rs) -/

/-- `HuffmanNode`: `Interior(left, right)` or `Terminal(value, weight)`. -/
inductive HuffmanNode where
  | Interior : HuffmanNode → HuffmanNode → HuffmanNode
  | Terminal : Nat → Nat → HuffmanNode
deriving Repr, DecidableEq

/-- `HuffmanNode::weight` (used only by the hand-written `PartialOrd`
implementation, which `BinaryHeap` never consults). -/
def HuffmanNode.weight : HuffmanNode → Nat
  | .Terminal _ w => w
  | .Interior l r => l.weight + r.weight

/-- `HuffmanNode::values`: leaf byte values, left to right. -/
def HuffmanNode.values : HuffmanNode → List Nat
  | .Terminal v _ => [v]
  | .Interior l r => l.values ++ r.values

/-- The backing array of `BinaryHeap<Reverse<HuffmanNode>>` from the standard
library.  All ordering decisions inside the heap go through the `<=`/`<`
operators on `Reverse<HuffmanNode>`, which dispatch to the hand-written
`PartialOrd for HuffmanNode` (`self.weight().cmp(&other.weight())`) with the
order flipped: stored `Reverse(x) <= Reverse(y)` iff `y.weight <= x.weight`,
so the std max-heap of `Reverse` nodes is a min-heap on weights.  `hget` is
array indexing; every access the heap operations below perform is in bounds,
so the default element is arbitrary. -/
def hget (l : List HuffmanNode) (i : Nat) : HuffmanNode := l.getD i (.Terminal 0 0)

/-- One hole move of the sift routines: std's `Hole` moves elements over the
hole and fills it at the end, and the net effect of each single move is the
swap of the two positions. -/
def hswap (l : List HuffmanNode) (i j : Nat) : List HuffmanNode :=
  (l.set i (hget l j)).set j (hget l i)

/-- `BinaryHeap::sift_up(start, pos)`: while the element is above `start` and
its parent is strictly smaller in the stored `Reverse` order — i.e. the
parent's weight is strictly greater than the element's — swap with the
parent. -/
def siftUp (start : Nat) (pos : Nat) (l : List HuffmanNode) : List HuffmanNode :=
  if start < pos then
    if (hget l ((pos - 1) / 2)).weight > (hget l pos).weight then
      siftUp start ((pos - 1) / 2) (hswap l pos ((pos - 1) / 2))
    else l
  else l
  termination_by pos
  decreasing_by omega

/-- Child selection of the sift-down routines:
`child += (hole.get(child) <= hole.get(child + 1)) as usize` — the right
child `2*pos+2` is preferred exactly when, in the stored `Reverse` order,
the left child is `<=` the right one, i.e. when the right child's weight is
`<=` the left child's weight (ties go right). -/
def sdChild (l : List HuffmanNode) (pos : Nat) : Nat :=
  if (hget l (2 * pos + 2)).weight ≤ (hget l (2 * pos + 1)).weight then 2 * pos + 2
  else 2 * pos + 1

/-- `BinaryHeap::sift_down_range(pos, end)`: while both children are below
`end`, stop once the element is `>=` the preferred child in the stored
`Reverse` order (the element's weight is `<=` the child's weight), otherwise
swap down; a final lone left child at `end - 1` is entered only if it is
strictly greater in `Reverse` order (its weight strictly smaller than the
element's). -/
def siftDownRange (e : Nat) (pos : Nat) (l : List HuffmanNode) : List HuffmanNode :=
  if 2 * pos + 3 ≤ e then
    if (hget l pos).weight ≤ (hget l (sdChild l pos)).weight then l
    else siftDownRange e (sdChild l pos) (hswap l pos (sdChild l pos))
  else if 2 * pos + 2 = e ∧ (hget l (2 * pos + 1)).weight < (hget l pos).weight then
    hswap l pos (2 * pos + 1)
  else l
  termination_by e - pos
  decreasing_by simp only [sdChild]; split <;> omega

/-- `BinaryHeap::sift_down(pos)` = `sift_down_range(pos, self.len())`. -/
def siftDown (pos : Nat) (l : List HuffmanNode) : List HuffmanNode :=
  siftDownRange l.length pos l

/-- The `for pos in (0 .. len / 2).rev() { sift_down(pos) }` loop of
`BinaryHeap::rebuild`: `rebuildAux n` performs `sift_down` at positions
`n-1, n-2, …, 0`. -/
def rebuildAux : Nat → List HuffmanNode → List HuffmanNode
  | 0, l => l
  | n + 1, l => rebuildAux n (siftDown n l)

/-- `BinaryHeap::from_iter` collects the elements and calls `rebuild`, which
sifts down every non-leaf position from `len / 2 - 1` down to `0`. -/
def rebuild (l : List HuffmanNode) : List HuffmanNode := rebuildAux (l.length / 2) l

/-- `BinaryHeap::push`: append the element, then `sift_up(0, old_len)`. -/
def heapPush (l : List HuffmanNode) (x : HuffmanNode) : List HuffmanNode :=
  siftUp 0 l.length (l ++ [x])

/-- First phase of `BinaryHeap::sift_down_to_bottom(pos)`: walk the hole all
the way down, always moving to the preferred child without comparing against
the element, and take a final lone left child unconditionally; returns the
final hole position together with the array. -/
def siftDownToBottom (e : Nat) (pos : Nat) (l : List HuffmanNode) : Nat × List HuffmanNode :=
  if 2 * pos + 3 ≤ e then
    siftDownToBottom e (sdChild l pos) (hswap l pos (sdChild l pos))
  else if 2 * pos + 2 = e then (2 * pos + 1, hswap l pos (2 * pos + 1))
  else (pos, l)
  termination_by e - pos
  decreasing_by simp only [sdChild]; split <;> omega

/-- Second phase of `sift_down_to_bottom`: `sift_up(0, pos)` from the final
hole position. -/
def popRestructure (l : List HuffmanNode) : List HuffmanNode :=
  siftUp 0 (siftDownToBottom l.length 0 l).1 (siftDownToBottom l.length 0 l).2

/-- `BinaryHeap::pop`: remove the last element; if the heap is still
non-empty, swap it into slot 0 and `sift_down_to_bottom(0)`.  The returned
element is the old slot-0 element — under the `Reverse`-of-weights order,
a node of minimal weight. -/
def heapPop (l : List HuffmanNode) : Option (HuffmanNode × List HuffmanNode) :=
  match l with
  | [] => none
  | _ :: _ =>
    if l.dropLast.length = 0 then some (hget l (l.length - 1), [])
    else some (hget l.dropLast 0, popRestructure (l.dropLast.set 0 (hget l (l.length - 1))))

/-- One `index.get_mut(val).unwrap().push_back(bit)` per leaf value, in the
order produced by `values()`. -/
def pushBits (ix : Nat → List Bool) (vals : List Nat) (bit : Bool) : Nat → List Bool :=
  vals.foldl (fun a v => Function.update a v (a v ++ [bit])) ix

/-- The `while heap.len() >= 2` merge loop of `HuffmanBuilder::build`,
followed by the final `heap.pop().unwrap()`.  The `pop().unwrap()` calls are
modelled with `Option.getD`; the default is unreachable because `heapPop` of
a list of length ≥ 2 always succeeds.  Each iteration shrinks the heap by
one, so any `fuel ≥ heap.length` reproduces the loop exactly. -/
def buildLoop : Nat → List HuffmanNode → (Nat → List Bool) → HuffmanNode × (Nat → List Bool)
  | 0, heap, ix => (((heapPop heap).getD (.Terminal 0 0, [])).1, ix)
  | fuel + 1, heap, ix =>
    if 2 ≤ heap.length then
      let p1 := (heapPop heap).getD (.Terminal 0 0, [])
      let p2 := (heapPop p1.2).getD (.Terminal 0 0, [])
      buildLoop fuel (heapPush p2.2 (.Interior p1.1 p2.1))
        (pushBits (pushBits ix p1.1.values false) p2.1.values true)
    else (((heapPop heap).getD (.Terminal 0 0, [])).1, ix)

/-- `HuffmanTree`: root node plus the per-byte code index.  The index is a
`Vec` of 256 `BitQueue`s in the source; we model it as a total function (only
indices 0..255 are ever touched). -/
structure HuffmanTree where
  root : HuffmanNode
  index : Nat → List Bool

/-- The root/index pair computed by `HuffmanBuilder::build`: seed the heap
with 256 terminals (one per byte value, weight = its count) via
`BinaryHeap::from_iter` (which `rebuild`s the array), then merge until a
single node remains. -/
def buildPair (counts : Nat → Nat) : HuffmanNode × (Nat → List Bool) :=
  buildLoop 256 (rebuild ((List.range 256).map fun i => HuffmanNode.Terminal i (counts i)))
    (fun _ => [])

/-- `HuffmanBuilder::build`, packaged as a `HuffmanTree`. -/
def build (counts : Nat → Nat) : HuffmanTree :=
  { root := (buildPair counts).1, index := (buildPair counts).2 }

/-- `HuffmanBuilder::push` applied to every byte of a chunk. -/
def pushAll (c : Nat → Nat) (bytes : List Nat) : Nat → Nat :=
  bytes.foldl (fun c b => Function.update c b (c b + 1)) c

/-! ## Encoder (HuffmanEncoder) -/

structure HuffmanEncoder where
  tree : Option HuffmanTree
  counts : Nat → Nat
  buffer_in : List Nat
  buffer_out : List Bool
  build_tree_after : Nat

/-- `HuffmanEncoder::new`. -/
def freshEncoder (buildTreeAfter : Nat) : HuffmanEncoder :=
  { tree := none, counts := fun _ => 0, buffer_in := [],
    buffer_out := [], build_tree_after := buildTreeAfter }

/-- The "Process output buffer" tail of `process_buffer`: if the bit count is
a byte multiple or the push is forced, pack with `to_u8s`, reverse the byte
order, and clear the buffer. -/
def processOutput (e : HuffmanEncoder) (force : Bool) : List Nat × HuffmanEncoder :=
  if e.buffer_out.length % 8 = 0 ∨ force then
    ((toU8s e.buffer_out).reverse, { e with buffer_out := [] })
  else ([], e)

/-- The `Some(tree)` drain loop of `process_buffer`:
`buffer_out.copy_from(&tree.encode(byte).unwrap())` for each pending byte
(`copy_from` appends the other queue's `as_vec`). -/
def encodeAll (t : HuffmanTree) (bytes : List Nat) (out : List Bool) : List Bool :=
  bytes.foldl (fun acc b => acc ++ asVec (t.index b)) out

/-- `HuffmanEncoder::process_buffer`.  In the `None` arm, once triggered, the
source builds the tree, copies the serialized header into `buffer_out`
(`copy_from` appends the header queue's `as_vec`, i.e. the bits reversed) and
recurses once with `force_push = false`; at that point the tree is present, so
the recursive call is exactly the `Some` arm followed by the output step,
whose packed bytes are discarded (`self.process_buffer(false)?;`) while
`buffer_out` stays cleared. -/
def HuffmanEncoder.processBuffer (e : HuffmanEncoder) (force : Bool) :
    Except CodecError (List Nat × HuffmanEncoder) :=
  match e.tree with
  | some t =>
    .ok (processOutput
      { e with buffer_out := encodeAll t e.buffer_in e.buffer_out, buffer_in := [] } force)
  | none =>
    if force ∨ e.build_tree_after < e.buffer_in.length then
      let t := build e.counts
      let e1 := { e with tree := some t,
                         buffer_out := e.buffer_out ++ asVec (bytesToBools (serializeBytes e.counts)) }
      let e2 := { e1 with buffer_out := encodeAll t e1.buffer_in e1.buffer_out, buffer_in := [] }
      let e3 := (processOutput e2 false).2
      .ok (processOutput e3 force)
    else
      .ok (processOutput e force)

/-- `Codec::process` for `HuffmanEncoder`: count the bytes while the tree is
absent, append the chunk to `buffer_in`, then `process_buffer(false)`. -/
def HuffmanEncoder.process (e : HuffmanEncoder) (buffer : List Nat) :
    Except CodecError (List Nat × HuffmanEncoder) :=
  let e := if e.tree.isNone then { e with counts := pushAll e.counts buffer } else e
  let e := { e with buffer_in := e.buffer_in ++ buffer }
  e.processBuffer false

/-- `Codec::flush` for `HuffmanEncoder`: `process_buffer(true)`. -/
def HuffmanEncoder.flush (e : HuffmanEncoder) :
    Except CodecError (List Nat × HuffmanEncoder) :=
  e.processBuffer true

/-! ## Decoder (HuffmanDecoder) -/

structure HuffmanDecoder where
  tree : Option HuffmanTree
  buffer_in : List Bool

/-- `HuffmanDecoder::new`. -/
def freshDecoder : HuffmanDecoder := { tree := none, buffer_in := [] }

/-- The `'tree` walk loop of `HuffmanDecoder::process`, for a tree whose root
is `Interior l r`: pop bits from the front, descend (false = left, true =
right), record the followed path; on a terminal, emit its byte, reset to the
root and clear the path; break when the buffer empties at an interior node.
Returns the emitted bytes and the unresolved `followed_path`. -/
def decWalk (l r : HuffmanNode) (cur : HuffmanNode) (followed : List Bool) (bits : List Bool) :
    List Nat × List Bool :=
  match cur, bits with
  | .Terminal v _, bs =>
    let p := decWalk l r (.Interior l r) [] bs
    (v :: p.1, p.2)
  | .Interior _ _, [] => ([], followed)
  | .Interior a b, bit :: rest =>
    decWalk l r (if bit then b else a) (followed ++ [bit]) rest
termination_by 2 * bits.length + (match cur with | .Terminal _ _ => 1 | _ => 0)
decreasing_by
  all_goals try simp only [List.length_cons]
  all_goals (try split) <;> omega

/-- `Codec::process` for `HuffmanDecoder`.  Incoming bytes are appended with
`push_back_u8s`.  With a tree, walk it and then restore the unresolved path
with `buffer_in.append(&mut followed_path)` (the walk itself only stops on an
empty buffer, so afterwards `buffer_in` is exactly the followed path).
Without a tree, wait for 2048 bytes, slice them off via `partial_to_u8s` /
`as_vec`, parse the counters and build the tree; the output stays empty.
A `Terminal` root would make the source loop forever; it cannot arise because
`build` always returns an `Interior` root, and we return the state unchanged
in that branch. -/
def HuffmanDecoder.process (d : HuffmanDecoder) (buffer : List Nat) :
    Except CodecError (List Nat × HuffmanDecoder) :=
  let q := pushBackU8s d.buffer_in buffer
  match d.tree with
  | some t =>
    match t.root with
    | .Interior l r =>
      let p := decWalk l r (.Interior l r) [] q
      .ok (p.1, { tree := d.tree, buffer_in := p.2 })
    | .Terminal _ _ => .ok ([], { tree := d.tree, buffer_in := q })
  | none =>
    if 64 * 256 ≤ q.length then
      let countsHeader := takeU8s q (8 * 256)
      let q2 := (asVec q).drop (64 * 256)
      .ok ([], { tree := some (build (parseCounts countsHeader)), buffer_in := q2 })
    else
      .ok ([], { tree := none, buffer_in := q })

/-! ## Specification-side notions -/

/-- The root-to-leaf path to the leaf for byte `b`: `false` for each left
edge, `true` for each right edge, in root-to-leaf order (the spec's
description of the per-byte code). -/
def pathTo : HuffmanNode → Nat → Option (List Bool)
  | .Terminal v _, b => if v = b then some [] else none
  | .Interior l r, b =>
    match pathTo l b with
    | some p => some (false :: p)
    | none =>
      match pathTo r b with
      | some p => some (true :: p)
      | none => none


/-- The multiset of leaf byte values over a multiset of heap nodes. -/
def mvals (m : Multiset HuffmanNode) : Multiset Nat :=
  m.bind fun n => (↑n.values : Multiset Nat)

/-- The number of nodes of nonzero weight in a heap array. -/
def nheavy (l : List HuffmanNode) : Nat := l.countP fun n => decide (n.weight ≠ 0)

/-- Invariant of the merge loop for counts concentrated on byte 255 with
total weight `W`: the heap holds the terminal for byte 255 exactly once, and
every other node has weight 0 and does not contain the leaf 255. -/
def ConcOK (W : Nat) (l : List HuffmanNode) : Prop :=
  (↑l : Multiset HuffmanNode).count (HuffmanNode.Terminal 255 W) = 1 ∧
  (∀ z ∈ l, z = HuffmanNode.Terminal 255 W ∨ (z.weight = 0 ∧ 255 ∉ z.values))

/-! ## Lengths and round trips of the bit/byte conversions -/

lemma length_byteBits (b : Nat) : (byteBits b).length = 8 := by
  simp [byteBits]

lemma bytesToBools_nil : bytesToBools [] = [] := rfl

lemma bytesToBools_cons (b : Nat) (l : List Nat) :
    bytesToBools (b :: l) = byteBits b ++ bytesToBools l := by
  simp [bytesToBools]

lemma length_bytesToBools (bs : List Nat) : (bytesToBools bs).length = 8 * bs.length := by
  induction bs with
  | nil => rfl
  | cons a l ih =>
    rw [bytesToBools_cons, List.length_append, length_byteBits, ih, List.length_cons]
    ring

set_option maxRecDepth 8192 in
lemma chunkByte_byteBits (b : Nat) (hb : b < 256) : chunkByte (byteBits b) = b := by
  revert hb
  revert b
  decide

lemma boolsToBytes_byteBits_append (b : Nat) (zs : List Bool) :
    boolsToBytes (byteBits b ++ zs) = chunkByte (byteBits b) :: boolsToBytes zs := rfl

lemma boolsToBytes_bytesToBools (bs : List Nat) (h : ∀ b ∈ bs, b < 256) :
    boolsToBytes (bytesToBools bs) = bs := by
  induction bs with
  | nil => rfl
  | cons a l ih =>
    rw [bytesToBools_cons, boolsToBytes_byteBits_append,
      chunkByte_byteBits a (h a (List.mem_cons_self a l)),
      ih fun b hb => h b (List.mem_cons_of_mem a hb)]

lemma length_u64be (n : Nat) : (u64be n).length = 8 := by
  simp [u64be]

lemma u64be_lt (n : Nat) : ∀ b ∈ u64be n, b < 256 := by
  intro b hb
  simp only [u64be, List.mem_map] at hb
  obtain ⟨j, _, rfl⟩ := hb
  exact Nat.mod_lt _ (by norm_num)

set_option maxRecDepth 8192 in
lemma length_serializeBytes (c : Nat → Nat) : (serializeBytes c).length = 2048 := by
  rw [serializeBytes, List.length_flatMap]
  simp [Function.comp_def, length_u64be, List.map_const', List.sum_replicate]

lemma serializeBytes_lt (c : Nat → Nat) : ∀ b ∈ serializeBytes c, b < 256 := by
  intro b hb
  simp only [serializeBytes, List.mem_flatMap] at hb
  obtain ⟨i, _, hmem⟩ := hb
  exact u64be_lt _ b hmem

lemma length_boolsToBytes (bs : List Bool) : (boolsToBytes bs).length = (bs.length + 7) / 8 := by
  induction bs using boolsToBytes.induct with
  | case1 => rfl
  | case2 b0 b1 b2 b3 b4 b5 b6 b7 rest ih =>
    simp only [boolsToBytes, List.length_cons, ih]
    omega
  | case3 bs h1 h2 =>
    rcases bs with _ | ⟨x0, _ | ⟨x1, _ | ⟨x2, _ | ⟨x3, _ | ⟨x4, _ | ⟨x5, _ | ⟨x6, _ | ⟨x7, t⟩⟩⟩⟩⟩⟩⟩⟩
    · exact absurd rfl h1
    · norm_num [boolsToBytes]
    · norm_num [boolsToBytes]
    · norm_num [boolsToBytes]
    · norm_num [boolsToBytes]
    · norm_num [boolsToBytes]
    · norm_num [boolsToBytes]
    · norm_num [boolsToBytes]
    · exact absurd rfl (h2 x0 x1 x2 x3 x4 x5 x6 x7 t)

lemma length_toU8s (q : List Bool) : (toU8s q).length = q.length / 8 := by
  rw [toU8s, takeU8s]
  have hmin : min (q.length / 8 + 1) (q.length / 8) = q.length / 8 := by omega
  simp only [hmin]
  split
  · simp [*]
  · rw [length_boolsToBytes, List.length_take, asVec, List.length_reverse]
    omega



lemma hget_set_ne : ∀ (l : List HuffmanNode) (i j : Nat) (x : HuffmanNode), i ≠ j →
    hget (l.set i x) j = hget l j := by
  intro l
  induction l with
  | nil => intro i j x _; rfl
  | cons a t ih =>
    intro i j x hne
    cases i with
    | zero =>
      cases j with
      | zero => exact absurd rfl hne
      | succ m => rfl
    | succ n =>
      cases j with
      | zero => rfl
      | succ m =>
        show hget (t.set n x) m = hget t m
        exact ih n m x (by omega)

lemma hget_set_self : ∀ (l : List HuffmanNode) (i : Nat) (x : HuffmanNode), i < l.length →
    hget (l.set i x) i = x := by
  intro l
  induction l with
  | nil => intro i x h; simp at h
  | cons a t ih =>
    intro i x h
    cases i with
    | zero => rfl
    | succ n =>
      show hget (t.set n x) n = x
      exact ih n x (by simpa using h)

lemma length_hswap (l : List HuffmanNode) (i j : Nat) : (hswap l i j).length = l.length := by
  simp [hswap]

lemma hget_hswap_other (l : List HuffmanNode) (i j k : Nat) (h1 : k ≠ i) (h2 : k ≠ j) :
    hget (hswap l i j) k = hget l k := by
  rw [hswap, hget_set_ne _ j k _ (fun h => h2 h.symm), hget_set_ne _ i k _ (fun h => h1 h.symm)]

lemma hget_hswap_fst (l : List HuffmanNode) (i j : Nat) (hi : i < l.length) (hij : i ≠ j) :
    hget (hswap l i j) i = hget l j := by
  rw [hswap, hget_set_ne _ j i _ (fun h => hij h.symm), hget_set_self _ i _ hi]

lemma hget_hswap_snd (l : List HuffmanNode) (i j : Nat) (hj : j < l.length) :
    hget (hswap l i j) j = hget l i := by
  rw [hswap, hget_set_self _ j _ (by simpa using hj)]

lemma hget_mem (l : List HuffmanNode) (i : Nat) (h : i < l.length) : hget l i ∈ l := by
  rw [hget, List.getD_eq_getElem l _ h]
  exact List.getElem_mem h

/-! ## Multiset preservation -/

lemma mset_set (l : List HuffmanNode) (i : Nat) (x : HuffmanNode) (h : i < l.length) :
    (↑(l.set i x) : Multiset HuffmanNode) + {hget l i} = ↑l + {x} := by
  induction l generalizing i with
  | nil => simp at h
  | cons a t ih =>
    cases i with
    | zero =>
      show (↑(x :: t) : Multiset HuffmanNode) + {a} = ↑(a :: t) + {x}
      rw [← Multiset.cons_coe, ← Multiset.cons_coe, add_comm _ ({a} : Multiset _),
        add_comm _ ({x} : Multiset _), Multiset.singleton_add, Multiset.singleton_add]
      exact Multiset.cons_swap a x ↑t
    | succ n =>
      have hn : n < t.length := by simpa using h
      show (↑(a :: t.set n x) : Multiset HuffmanNode) + {hget t n} = ↑(a :: t) + {x}
      rw [← Multiset.cons_coe, ← Multiset.cons_coe, Multiset.cons_add, Multiset.cons_add,
        ih n hn]

lemma mset_hswap (l : List HuffmanNode) (i j : Nat) (hi : i < l.length) (hj : j < l.length) :
    (↑(hswap l i j) : Multiset HuffmanNode) = ↑l := by
  by_cases hij : i = j
  · subst hij
    have h1 := mset_set l i (hget l i) hi
    have h2 := mset_set (l.set i (hget l i)) i (hget l i) (by simpa using hi)
    rw [hget_set_self l i (hget l i) hi] at h2
    have h3 := h2.trans h1
    exact add_right_cancel h3
  · have h1 := mset_set l i (hget l j) hi
    have h2 := mset_set (l.set i (hget l j)) j (hget l i) (by simpa using hj)
    rw [hget_set_ne l i j (hget l j) hij] at h2
    exact add_right_cancel (h2.trans h1)

lemma length_siftUp (start : Nat) : ∀ pos l, (siftUp start pos l).length = l.length := by
  intro pos
  induction pos using Nat.strong_induction_on with
  | _ pos ih =>
    intro l
    rw [siftUp.eq_def]
    split
    · split
      · rw [ih ((pos - 1) / 2) (by omega), length_hswap]
      · rfl
    · rfl

lemma mset_siftUp (start : Nat) : ∀ pos l, pos < l.length →
    (↑(siftUp start pos l) : Multiset HuffmanNode) = ↑l := by
  intro pos
  induction pos using Nat.strong_induction_on with
  | _ pos ih =>
    intro l hpos
    rw [siftUp.eq_def]
    split
    · split
      · rw [ih ((pos - 1) / 2) (by omega) (hswap l pos ((pos - 1) / 2))
            (by rw [length_hswap]; omega),
          mset_hswap l pos ((pos - 1) / 2) hpos (by omega)]
      · rfl
    · rfl

lemma sdChild_cases (l : List HuffmanNode) (pos : Nat) :
    sdChild l pos = 2 * pos + 1 ∨ sdChild l pos = 2 * pos + 2 := by
  rw [sdChild]; split
  · exact Or.inr rfl
  · exact Or.inl rfl

lemma length_siftDownRange (e : Nat) : ∀ k pos l, e - pos ≤ k →
    (siftDownRange e pos l).length = l.length := by
  intro k
  induction k with
  | zero =>
    intro pos l h
    rw [siftDownRange.eq_def]
    rw [if_neg (by omega), if_neg (fun hc => by omega)]
  | succ k ihk =>
    intro pos l h
    rw [siftDownRange.eq_def]
    split
    · split
      · rfl
      · rw [ihk (sdChild l pos) (hswap l pos (sdChild l pos))
            (by rcases sdChild_cases l pos with h' | h' <;> omega), length_hswap]
    · split
      · rw [length_hswap]
      · rfl

lemma mset_siftDownRange (e : Nat) : ∀ k pos l, e - pos ≤ k → pos < e → e ≤ l.length →
    (↑(siftDownRange e pos l) : Multiset HuffmanNode) = ↑l := by
  intro k
  induction k with
  | zero =>
    intro pos l h _ _
    rw [siftDownRange.eq_def]
    rw [if_neg (by omega), if_neg (fun hc => by omega)]
  | succ k ihk =>
    intro pos l h hpos he
    rw [siftDownRange.eq_def]
    split
    · split
      · rfl
      · have hc := sdChild_cases l pos
        rw [ihk (sdChild l pos) (hswap l pos (sdChild l pos))
            (by rcases hc with h' | h' <;> omega)
            (by rcases hc with h' | h' <;> omega)
            (by rw [length_hswap]; omega),
          mset_hswap l pos (sdChild l pos) (by omega) (by rcases hc with h' | h' <;> omega)]
    · split
      · exact mset_hswap l pos (2 * pos + 1) (by omega) (by omega)
      · rfl

lemma siftDownToBottom_spec (e : Nat) : ∀ k pos l, e - pos ≤ k → pos < e → e ≤ l.length →
    (↑(siftDownToBottom e pos l).2 : Multiset HuffmanNode) = ↑l ∧
    (siftDownToBottom e pos l).2.length = l.length ∧
    (siftDownToBottom e pos l).1 < e := by
  intro k
  induction k with
  | zero =>
    intro pos l h hpos he
    rw [siftDownToBottom.eq_def]
    rw [if_neg (by omega), if_neg (by omega)]
    exact ⟨rfl, rfl, hpos⟩
  | succ k ihk =>
    intro pos l h hpos he
    rw [siftDownToBottom.eq_def]
    split
    · have hc := sdChild_cases l pos
      have h1 := ihk (sdChild l pos) (hswap l pos (sdChild l pos))
        (by rcases hc with h' | h' <;> omega)
        (by rcases hc with h' | h' <;> omega)
        (by rw [length_hswap]; omega)
      refine ⟨?_, ?_, h1.2.2⟩
      · rw [h1.1, mset_hswap l pos (sdChild l pos) (by omega)
          (by rcases hc with h' | h' <;> omega)]
      · rw [h1.2.1, length_hswap]
    · split
      · refine ⟨mset_hswap l pos (2 * pos + 1) (by omega) (by omega),
          length_hswap l pos _, by omega⟩
      · exact ⟨rfl, rfl, hpos⟩

lemma popRestructure_spec (m : List HuffmanNode) (h : 1 ≤ m.length) :
    (↑(popRestructure m) : Multiset HuffmanNode) = ↑m ∧
    (popRestructure m).length = m.length := by
  have hs := siftDownToBottom_spec m.length m.length 0 m (by omega) (by omega) le_rfl
  rw [popRestructure]
  constructor
  · rw [mset_siftUp 0 _ _ (by rw [hs.2.1]; exact hs.2.2), hs.1]
  · rw [length_siftUp, hs.2.1]

lemma heapPush_spec (l : List HuffmanNode) (x : HuffmanNode) :
    (↑(heapPush l x) : Multiset HuffmanNode) = x ::ₘ ↑l ∧
    (heapPush l x).length = l.length + 1 := by
  rw [heapPush]
  constructor
  · rw [mset_siftUp 0 l.length (l ++ [x]) (by simp)]
    show (↑(l ++ [x]) : Multiset HuffmanNode) = x ::ₘ ↑l
    rw [← Multiset.coe_add, Multiset.coe_singleton, add_comm, Multiset.singleton_add]
  · rw [length_siftUp]; simp

lemma heapPop_spec (l : List HuffmanNode) (h : l ≠ []) :
    ∃ l', heapPop l = some (hget l 0, l') ∧
      (↑l : Multiset HuffmanNode) = hget l 0 ::ₘ ↑l' ∧ l'.length + 1 = l.length := by
  match l, h with
  | [a], _ =>
    refine ⟨[], rfl, ?_, rfl⟩
    rw [show hget [a] 0 = a from rfl]
    rfl
  | a :: b :: t, _ =>
    set L := a :: b :: t with hL
    have hlen : 2 ≤ L.length := by simp [hL]
    have hrest : L.dropLast.length = L.length - 1 := List.length_dropLast L
    have hrne : L.dropLast.length ≠ 0 := by omega
    have hget0 : hget L.dropLast 0 = hget L 0 := by
      show hget ((a :: b :: t).dropLast) 0 = a
      rw [List.dropLast_cons₂]
      rfl
    have hlast : hget L (L.length - 1) = L.getLast (by simp [hL]) := by
      rw [hget, List.getD_eq_getElem _ _ (by omega), List.getLast_eq_getElem]
    have hsplit : (↑L : Multiset HuffmanNode)
        = ↑L.dropLast + {hget L (L.length - 1)} := by
      conv_lhs => rw [← List.dropLast_append_getLast (show L ≠ [] by simp [hL])]
      rw [← Multiset.coe_add, hlast, Multiset.coe_singleton]
    have hslen : 1 ≤ (L.dropLast.set 0 (hget L (L.length - 1))).length := by
      rw [List.length_set]; omega
    have hpr := popRestructure_spec (L.dropLast.set 0 (hget L (L.length - 1))) hslen
    have hms := mset_set L.dropLast 0 (hget L (L.length - 1)) (by omega)
    refine ⟨popRestructure (L.dropLast.set 0 (hget L (L.length - 1))), ?_, ?_, ?_⟩
    · show heapPop L = _
      rw [heapPop]
      rw [if_neg hrne, hget0]
    · rw [hsplit, ← hget0, ← Multiset.singleton_add, hpr.1,
        add_comm ({hget L.dropLast 0} : Multiset HuffmanNode) _]
      exact hms.symm
    · rw [hpr.2, List.length_set]; omega

/-! ## Leaf values and the code index across the merge loop -/

lemma mvals_cons (x : HuffmanNode) (m : Multiset HuffmanNode) :
    mvals (x ::ₘ m) = ↑x.values + mvals m := by
  simp [mvals, Multiset.cons_bind]

lemma pathTo_none (n : HuffmanNode) : ∀ v, v ∉ n.values → pathTo n v = none := by
  induction n with
  | Terminal a w =>
    intro v hv
    have : a ≠ v := by
      intro h
      exact hv (by simp [HuffmanNode.values, h])
    simp [pathTo, this]
  | Interior a b iha ihb =>
    intro v hv
    simp only [HuffmanNode.values, List.mem_append] at hv
    push_neg at hv
    simp [pathTo, iha v hv.1, ihb v hv.2]

lemma pushBits_not_mem : ∀ (vals : List Nat) (ix : Nat → List Bool) (bit : Bool) (v : Nat),
    v ∉ vals → pushBits ix vals bit v = ix v := by
  intro vals
  induction vals with
  | nil => intro ix bit v _; rfl
  | cons a t ih =>
    intro ix bit v hv
    have hva : v ≠ a := fun h => hv (h ▸ List.mem_cons_self a t)
    show pushBits (Function.update ix a (ix a ++ [bit])) t bit v = ix v
    rw [ih _ _ _ (fun h => hv (List.mem_cons_of_mem a h))]
    exact Function.update_noteq hva _ _

lemma pushBits_count_one : ∀ (vals : List Nat) (ix : Nat → List Bool) (bit : Bool) (v : Nat),
    vals.count v = 1 → pushBits ix vals bit v = ix v ++ [bit] := by
  intro vals
  induction vals with
  | nil => intro ix bit v h; simp at h
  | cons a t ih =>
    intro ix bit v h
    by_cases hav : a = v
    · subst hav
      have ht : t.count a = 0 := by
        have hcs := List.count_cons_self a t
        omega
      have hnm : a ∉ t := List.count_eq_zero.mp ht
      show pushBits (Function.update ix a (ix a ++ [bit])) t bit a = ix a ++ [bit]
      rw [pushBits_not_mem t _ bit a hnm]
      exact Function.update_same a _ ix
    · have ht : t.count v = 1 := by
        have hcc := List.count_cons v a t
        rw [if_neg (fun hc => hav (beq_iff_eq.mp hc))] at hcc
        omega
      show pushBits (Function.update ix a (ix a ++ [bit])) t bit v = ix v ++ [bit]
      rw [ih _ _ _ ht, Function.update_noteq (fun h => hav h.symm) _ _]

lemma buildLoop_singleton (fuel : Nat) (x : HuffmanNode) (ix : Nat → List Bool) :
    buildLoop fuel [x] ix = (x, ix) := by
  cases fuel with
  | zero => rfl
  | succ n => rfl

lemma buildLoop_main : ∀ (fuel : Nat) (heap : List HuffmanNode) (ix : Nat → List Bool),
    heap ≠ [] → heap.length ≤ fuel + 1 →
    mvals ↑heap = ↑(List.range 256) →
    (∀ n ∈ heap, ∀ v ∈ n.values, pathTo n v = some ((ix v).reverse)) →
    ((↑(buildLoop fuel heap ix).1.values : Multiset Nat) = ↑(List.range 256)) ∧
    (∀ v ∈ (buildLoop fuel heap ix).1.values,
        pathTo (buildLoop fuel heap ix).1 v
          = some (((buildLoop fuel heap ix).2 v).reverse)) := by
  intro fuel
  induction fuel with
  | zero =>
    intro heap ix hne hlen hvals hpath
    obtain ⟨x, rfl⟩ : ∃ x, heap = [x] := by
      cases heap with
      | nil => exact absurd rfl hne
      | cons a t =>
        cases t with
        | nil => exact ⟨a, rfl⟩
        | cons b t2 => exfalso; simp only [List.length_cons] at hlen; omega
    rw [buildLoop_singleton]
    constructor
    · have : mvals ↑[x] = (↑x.values : Multiset Nat) := by
        show mvals (x ::ₘ ↑([] : List HuffmanNode)) = ↑x.values
        rw [mvals_cons]
        simp [mvals]
      rw [← this]; exact hvals
    · intro v hv
      exact hpath x (List.mem_cons_self x []) v hv
  | succ fuel ih =>
    intro heap ix hne hlen hvals hpath
    by_cases h2 : 2 ≤ heap.length
    · obtain ⟨l₂, hpop1, hm1, hl1⟩ := heapPop_spec heap hne
      set x := hget heap 0 with hxdef
      have hl₂ne : l₂ ≠ [] := by
        intro h
        rw [h] at hl1
        simp at hl1
        omega
      obtain ⟨l₃, hpop2, hm2, hl2⟩ := heapPop_spec l₂ hl₂ne
      set y := hget l₂ 0 with hydef
      have hstep : buildLoop (fuel + 1) heap ix
          = buildLoop fuel (heapPush l₃ (.Interior x y))
              (pushBits (pushBits ix x.values false) y.values true) := by
        simp only [buildLoop, if_pos h2, hpop1, Option.getD_some, hpop2]
      rw [hstep]
      -- memberships of the popped nodes in the original heap
      have hxmem : x ∈ heap := hget_mem heap 0 (by omega)
      have hymem : y ∈ heap := by
        have h1 : y ∈ (↑l₂ : Multiset HuffmanNode) :=
          Multiset.mem_coe.mpr (hget_mem l₂ 0 (by omega))
        have h2' : y ∈ (↑heap : Multiset HuffmanNode) := by
          rw [hm1]; exact Multiset.mem_cons_of_mem h1
        exact Multiset.mem_coe.mp h2'
      have hmem3 : ∀ n ∈ l₃, n ∈ heap := by
        intro n hn
        have ha : n ∈ (↑l₂ : Multiset HuffmanNode) := by
          rw [hm2]
          exact Multiset.mem_cons_of_mem (Multiset.mem_coe.mpr hn)
        have hb : n ∈ (↑heap : Multiset HuffmanNode) := by
          rw [hm1]
          exact Multiset.mem_cons_of_mem ha
        exact Multiset.mem_coe.mp hb
      -- value multiset decomposition and per-value counting
      have hsplitvals : mvals ↑heap = ↑x.values + (↑y.values + mvals ↑l₃) := by
        rw [hm1, mvals_cons, hm2, mvals_cons]
      have hkey : ∀ v, Multiset.count v (↑x.values : Multiset Nat)
          + (Multiset.count v (↑y.values : Multiset Nat)
            + Multiset.count v (mvals ↑l₃)) ≤ 1 := by
        intro v
        have h1 : Multiset.count v (mvals ↑heap) ≤ 1 := by
          rw [hvals, Multiset.coe_count]
          exact List.nodup_iff_count_le_one.mp (List.nodup_range 256) v
        rw [hsplitvals, Multiset.count_add, Multiset.count_add] at h1
        exact h1
      have hpushm := (heapPush_spec l₃ (.Interior x y)).1
      have hpushlen := (heapPush_spec l₃ (.Interior x y)).2
      apply ih
      · intro h
        rw [h] at hpushlen
        simp at hpushlen
      · omega
      · rw [hpushm, mvals_cons]
        show (↑(x.values ++ y.values) : Multiset Nat) + mvals ↑l₃ = ↑(List.range 256)
        rw [← Multiset.coe_add, ← hvals, hsplitvals, add_assoc]
      · intro n hn v hv
        have hn' : n = HuffmanNode.Interior x y ∨ n ∈ (↑l₃ : Multiset HuffmanNode) := by
          have h1 : n ∈ (↑(heapPush l₃ (.Interior x y)) : Multiset HuffmanNode) :=
            Multiset.mem_coe.mpr hn
          rw [hpushm] at h1
          exact Multiset.mem_cons.mp h1
        rcases hn' with rfl | hn3
        · have hvsplit : v ∈ x.values ∨ v ∈ y.values := by
            simpa [HuffmanNode.values] using hv
          rcases hvsplit with hvx | hvy
          · have hcx1 : 1 ≤ Multiset.count v (↑x.values : Multiset Nat) :=
              Multiset.one_le_count_iff_mem.mpr (Multiset.mem_coe.mpr hvx)
            have hvny : v ∉ y.values := by
              intro hvy
              have := Multiset.one_le_count_iff_mem.mpr
                (Multiset.mem_coe.mpr hvy : v ∈ (↑y.values : Multiset Nat))
              have hk := hkey v
              omega
            have hcx : x.values.count v = 1 := by
              have hk := hkey v
              have h1 := hcx1
              simp only [Multiset.coe_count] at hk h1
              omega
            have hxpath := hpath x hxmem v hvx
            have hixv : pushBits (pushBits ix x.values false) y.values true v
                = ix v ++ [false] := by
              rw [pushBits_not_mem y.values _ true v hvny,
                pushBits_count_one x.values ix false v hcx]
            rw [hixv]
            simp only [pathTo, hxpath]
            simp
          · have hcy1 : 1 ≤ Multiset.count v (↑y.values : Multiset Nat) :=
              Multiset.one_le_count_iff_mem.mpr (Multiset.mem_coe.mpr hvy)
            have hvnx : v ∉ x.values := by
              intro hvx
              have := Multiset.one_le_count_iff_mem.mpr
                (Multiset.mem_coe.mpr hvx : v ∈ (↑x.values : Multiset Nat))
              have hk := hkey v
              omega
            have hcy : y.values.count v = 1 := by
              have hk := hkey v
              have h1 := hcy1
              simp only [Multiset.coe_count] at hk h1
              omega
            have hypath := hpath y hymem v hvy
            have hixv : pushBits (pushBits ix x.values false) y.values true v
                = ix v ++ [true] := by
              rw [pushBits_count_one y.values _ true v hcy,
                pushBits_not_mem x.values ix false v hvnx]
            rw [hixv]
            simp only [pathTo, pathTo_none x v hvnx, hypath]
            simp
        · have hn3' : n ∈ l₃ := Multiset.mem_coe.mp hn3
          have hvin3 : v ∈ mvals ↑l₃ :=
            Multiset.mem_bind.mpr ⟨n, hn3, Multiset.mem_coe.mpr hv⟩
          have hv3c : 1 ≤ Multiset.count v (mvals ↑l₃) :=
            Multiset.one_le_count_iff_mem.mpr hvin3
          have hvnx : v ∉ x.values := by
            intro hvx
            have := Multiset.one_le_count_iff_mem.mpr
              (Multiset.mem_coe.mpr hvx : v ∈ (↑x.values : Multiset Nat))
            have hk := hkey v
            omega
          have hvny : v ∉ y.values := by
            intro hvy
            have := Multiset.one_le_count_iff_mem.mpr
              (Multiset.mem_coe.mpr hvy : v ∈ (↑y.values : Multiset Nat))
            have hk := hkey v
            omega
          have hixv : pushBits (pushBits ix x.values false) y.values true v = ix v := by
            rw [pushBits_not_mem y.values _ true v hvny,
              pushBits_not_mem x.values ix false v hvnx]
          rw [hixv]
          exact hpath n (hmem3 n hn3') v hv
    · obtain ⟨x, rfl⟩ : ∃ x, heap = [x] := by
        cases heap with
        | nil => exact absurd rfl hne
        | cons a t =>
          cases t with
          | nil => exact ⟨a, rfl⟩
          | cons b t2 => exfalso; simp only [List.length_cons] at h2; omega
      rw [buildLoop_singleton]
      constructor
      · have : mvals ↑[x] = (↑x.values : Multiset Nat) := by
          show mvals (x ::ₘ ↑([] : List HuffmanNode)) = ↑x.values
          rw [mvals_cons]
          simp [mvals]
        rw [← this]; exact hvals
      · intro v hv
        exact hpath x (List.mem_cons_self x []) v hv

/-! ## The initial heap -/

lemma mvals_terminals (c : Nat → Nat) : ∀ L : List Nat,
    mvals ↑(L.map fun i => HuffmanNode.Terminal i (c i)) = ↑L := by
  intro L
  induction L with
  | nil => simp [mvals]
  | cons a t ih =>
    show mvals ↑(HuffmanNode.Terminal a (c a) :: t.map fun i => HuffmanNode.Terminal i (c i))
        = ↑(a :: t)
    rw [← Multiset.cons_coe, mvals_cons, ih, ← Multiset.cons_coe]
    show (↑[a] : Multiset Nat) + ↑t = a ::ₘ (↑t : Multiset Nat)
    rw [Multiset.coe_singleton, Multiset.singleton_add]

lemma rebuildAux_spec : ∀ (n : Nat) (l : List HuffmanNode), n ≤ l.length →
    (↑(rebuildAux n l) : Multiset HuffmanNode) = ↑l ∧ (rebuildAux n l).length = l.length := by
  intro n
  induction n with
  | zero => intro l _; exact ⟨rfl, rfl⟩
  | succ n ih =>
    intro l h
    have hsd1 : (↑(siftDown n l) : Multiset HuffmanNode) = ↑l :=
      mset_siftDownRange l.length l.length n l (by omega) (by omega) le_rfl
    have hsd2 : (siftDown n l).length = l.length :=
      length_siftDownRange l.length l.length n l (by omega)
    have hr := ih (siftDown n l) (by rw [hsd2]; omega)
    exact ⟨hr.1.trans hsd1, hr.2.trans hsd2⟩

lemma rebuild_spec (l : List HuffmanNode) :
    (↑(rebuild l) : Multiset HuffmanNode) = ↑l ∧ (rebuild l).length = l.length :=
  rebuildAux_spec (l.length / 2) l (by omega)

lemma build_eq (c : Nat → Nat) :
    build c = { root := (buildPair c).1, index := (buildPair c).2 } := rfl

lemma mk_root (x : HuffmanNode) (y : Nat → List Bool) : (HuffmanTree.mk x y).root = x := rfl

lemma mk_index (x : HuffmanNode) (y : Nat → List Bool) : (HuffmanTree.mk x y).index = y := rfl

lemma build_root_eq (c : Nat → Nat) : (build c).root = (buildPair c).1 :=
  (congrArg HuffmanTree.root (build_eq c)).trans (mk_root ((buildPair c).1) ((buildPair c).2))

lemma build_index_eq (c : Nat → Nat) : (build c).index = (buildPair c).2 :=
  (congrArg HuffmanTree.index (build_eq c)).trans (mk_index ((buildPair c).1) ((buildPair c).2))

lemma buildPair_eq (c : Nat → Nat) :
    buildPair c = buildLoop 256
      (rebuild ((List.range 256).map fun i => HuffmanNode.Terminal i (c i)))
      (fun _ => []) := rfl

lemma build_main (c : Nat → Nat) :
    ((↑(build c).root.values : Multiset Nat) = ↑(List.range 256)) ∧
    ∀ v ∈ (build c).root.values,
      pathTo (build c).root v = some (((build c).index v).reverse) := by
  rw [build_root_eq, build_index_eq, buildPair_eq]
  have hinit := rebuild_spec ((List.range 256).map fun i => HuffmanNode.Terminal i (c i))
  have hlen0 : ((List.range 256).map fun i => HuffmanNode.Terminal i (c i)).length = 256 := by
    simp
  have hne : rebuild ((List.range 256).map fun i => HuffmanNode.Terminal i (c i)) ≠ [] := by
    intro h
    have h2 := hinit.2
    rw [h, hlen0] at h2
    simp at h2
  have hm := buildLoop_main 256
    (rebuild ((List.range 256).map fun i => HuffmanNode.Terminal i (c i)))
    (fun _ => []) hne (by rw [hinit.2, hlen0]; omega)
    (by rw [hinit.1]; exact mvals_terminals c (List.range 256))
    (by
      intro n hn v hv
      have hn2 : n ∈ (List.range 256).map fun i => HuffmanNode.Terminal i (c i) := by
        have h1 : n ∈ (↑(rebuild ((List.range 256).map fun i => HuffmanNode.Terminal i (c i)))
            : Multiset HuffmanNode) := Multiset.mem_coe.mpr hn
        rw [hinit.1] at h1
        exact Multiset.mem_coe.mp h1
      obtain ⟨i, _, rfl⟩ := List.mem_map.mp hn2
      have hvi : v = i := by simpa [HuffmanNode.values] using hv
      subst hvi
      simp [pathTo])
  exact hm

/-! ## Counts concentrated on byte 255 -/

lemma nheavy_eq_of_mset (l₁ l₂ : List HuffmanNode)
    (h : (↑l₁ : Multiset HuffmanNode) = ↑l₂) : nheavy l₁ = nheavy l₂ :=
  (Multiset.coe_eq_coe.mp h).countP_eq _

lemma nheavy_le_of_cons (x : HuffmanNode) (m l : List HuffmanNode)
    (h : (↑l : Multiset HuffmanNode) = x ::ₘ ↑m) : nheavy m ≤ nheavy l := by
  have h2 : (↑l : Multiset HuffmanNode) = ↑(x :: m) := by rw [h, Multiset.cons_coe]
  have hp := nheavy_eq_of_mset l (x :: m) h2
  rw [hp, nheavy, nheavy, List.countP_cons]
  omega

lemma not_two_heavy : ∀ (l : List HuffmanNode), nheavy l ≤ 1 →
    ∀ i j, i < l.length → j < l.length → i ≠ j →
    (hget l i).weight = 0 ∨ (hget l j).weight = 0 := by
  intro l
  induction l with
  | nil => intro _ i j hi; simp at hi
  | cons a t ih =>
    intro hcount i j hi hj hij
    have hsub : nheavy t ≤ nheavy (a :: t) := by
      rw [nheavy, nheavy, List.countP_cons]; omega
    have hzt : ∀ m, m < t.length → ¬ a.weight = 0 → (hget t m).weight = 0 := by
      intro m hm ha
      have hpa : (decide (a.weight ≠ 0)) = true := by simp [ha]
      have ht : t.countP (fun n => decide (n.weight ≠ 0)) = 0 := by
        have hcc : nheavy (a :: t) = nheavy t + 1 := by
          rw [nheavy, nheavy, List.countP_cons, hpa, if_pos rfl]
        have h1 := hcount
        simp only [nheavy] at hcc h1
        omega
      by_contra hw
      have hpos : 0 < t.countP (fun n => decide (n.weight ≠ 0)) :=
        List.countP_pos_iff.mpr ⟨hget t m, hget_mem t m hm, by simpa using hw⟩
      omega
    cases i with
    | zero =>
      cases j with
      | zero => exact absurd rfl hij
      | succ m =>
        by_cases ha : a.weight = 0
        · exact Or.inl ha
        · exact Or.inr (hzt m (by simpa using hj) ha)
    | succ n =>
      cases j with
      | zero =>
        by_cases ha : a.weight = 0
        · exact Or.inr ha
        · exact Or.inl (hzt n (by simpa using hi) ha)
      | succ m =>
        exact ih (le_trans hsub hcount) n m (by simpa using hi) (by simpa using hj)
          (by omega)

lemma siftUp_zero_root : ∀ pos (l : List HuffmanNode), (hget l 0).weight = 0 →
    hget (siftUp 0 pos l) 0 = hget l 0 := by
  intro pos
  induction pos using Nat.strong_induction_on with
  | _ pos ih =>
    intro l h0
    rw [siftUp.eq_def]
    split
    · split
      · rename_i hlt hgt
        by_cases hpar : (pos - 1) / 2 = 0
        · exfalso
          rw [hpar, h0] at hgt
          omega
        · have hsw : hget (hswap l pos ((pos - 1) / 2)) 0 = hget l 0 :=
            hget_hswap_other l pos ((pos - 1) / 2) 0 (by omega) (fun h => hpar h.symm)
          rw [ih ((pos - 1) / 2) (by omega) (hswap l pos ((pos - 1) / 2))
            (by rw [hsw]; exact h0), hsw]
      · rfl
    · rfl

lemma sdtb_away (e : Nat) : ∀ k pos (l : List HuffmanNode), e - pos ≤ k → 1 ≤ pos →
    hget (siftDownToBottom e pos l).2 0 = hget l 0 ∧ 1 ≤ (siftDownToBottom e pos l).1 := by
  intro k
  induction k with
  | zero =>
    intro pos l h hp
    rw [siftDownToBottom.eq_def]
    rw [if_neg (by omega), if_neg (by omega)]
    exact ⟨rfl, hp⟩
  | succ k ihk =>
    intro pos l h hp
    rw [siftDownToBottom.eq_def]
    split
    · have hc := sdChild_cases l pos
      have h1 := ihk (sdChild l pos) (hswap l pos (sdChild l pos))
        (by rcases hc with h' | h' <;> omega) (by rcases hc with h' | h' <;> omega)
      refine ⟨?_, h1.2⟩
      rw [h1.1, hget_hswap_other l pos (sdChild l pos) 0 (by omega)
        (by rcases hc with h' | h' <;> omega)]
    · split
      · exact ⟨hget_hswap_other l pos (2 * pos + 1) 0 (by omega) (by omega), by omega⟩
      · exact ⟨rfl, hp⟩

lemma popRestructure_zero_root (m : List HuffmanNode) (h2 : 2 ≤ m.length)
    (hh : nheavy m ≤ 1) : (hget (popRestructure m) 0).weight = 0 := by
  rw [popRestructure]
  by_cases h3 : 3 ≤ m.length
  · have hstep : siftDownToBottom m.length 0 m
        = siftDownToBottom m.length (sdChild m 0) (hswap m 0 (sdChild m 0)) := by
      rw [siftDownToBottom.eq_def]
      rw [if_pos (by omega)]
    have hc := sdChild_cases m 0
    have hchild : (hget m (sdChild m 0)).weight = 0 := by
      have h12 := not_two_heavy m hh 1 2 (by omega) (by omega) (by omega)
      have e1 : 2 * 0 + 1 = 1 := by norm_num
      have e2 : 2 * 0 + 2 = 2 := by norm_num
      rw [sdChild, e1, e2]
      split
      · rcases h12 with h' | h'
        · rename_i hcnd; omega
        · exact h'
      · rcases h12 with h' | h'
        · exact h'
        · rename_i hcnd; omega
    have hroot1 : hget (hswap m 0 (sdChild m 0)) 0 = hget m (sdChild m 0) :=
      hget_hswap_fst m 0 (sdChild m 0) (by omega) (by rcases hc with h' | h' <;> omega)
    have haw := sdtb_away m.length m.length (sdChild m 0) (hswap m 0 (sdChild m 0))
      (by rcases hc with h' | h' <;> omega) (by rcases hc with h' | h' <;> omega)
    rw [hstep, siftUp_zero_root _ _ (by rw [haw.1, hroot1]; exact hchild), haw.1, hroot1]
    exact hchild
  · have hstep : siftDownToBottom m.length 0 m = (2 * 0 + 1, hswap m 0 (2 * 0 + 1)) := by
      rw [siftDownToBottom.eq_def]
      rw [if_neg (by omega), if_pos (by omega)]
    rw [hstep]
    have h01 := not_two_heavy m hh 0 (2 * 0 + 1) (by omega) (by omega) (by omega)
    have hs0 : hget (hswap m 0 (2 * 0 + 1)) 0 = hget m (2 * 0 + 1) :=
      hget_hswap_fst m 0 (2 * 0 + 1) (by omega) (by omega)
    have hs1 : hget (hswap m 0 (2 * 0 + 1)) (2 * 0 + 1) = hget m 0 :=
      hget_hswap_snd m 0 (2 * 0 + 1) (by omega)
    rw [siftUp.eq_def]
    rw [if_pos (by omega)]
    have e0 : (2 * 0 + 1 - 1) / 2 = 0 := by norm_num
    rw [e0]
    split
    · rename_i hgt
      rw [hs0, hs1] at hgt
      rw [siftUp.eq_def]
      rw [if_neg (by omega)]
      rw [hget_hswap_snd (hswap m 0 (2 * 0 + 1)) (2 * 0 + 1) 0
        (by rw [length_hswap]; omega), hs1]
      rcases h01 with h' | h'
      · exact h'
      · omega
    · rename_i hng
      rw [hs0, hs1] at hng
      rw [hs0]
      rcases h01 with h' | h'
      · omega
      · exact h'

lemma heapPush_zero_root (l : List HuffmanNode) (x : HuffmanNode) (hx : x.weight = 0)
    (hr : 2 ≤ l.length → (hget l 0).weight = 0) :
    (hget (heapPush l x) 0).weight = 0 := by
  rw [heapPush]
  match l, hr with
  | [], _ =>
    rw [siftUp.eq_def]
    rw [if_neg (by simp)]
    exact hx
  | [y], _ =>
    show (hget (siftUp 0 1 [y, x]) 0).weight = 0
    rw [siftUp.eq_def]
    rw [if_pos (by omega), show ((1 : Nat) - 1) / 2 = 0 from by norm_num]
    split
    · rename_i hgt
      rw [siftUp.eq_def]
      rw [if_neg (by omega)]
      show ((hget (hswap [y, x] 1 0) 0)).weight = 0
      rw [hget_hswap_snd [y, x] 1 0 (by simp)]
      exact hx
    · rename_i hng
      have hyx : ¬ (y.weight > x.weight) := hng
      show y.weight = 0
      omega
  | a :: b :: t, hr =>
    have h0 : (hget (a :: b :: t) 0).weight = 0 := hr (by simp)
    have hz : (hget ((a :: b :: t) ++ [x]) 0).weight = 0 := h0
    rw [siftUp_zero_root (a :: b :: t).length ((a :: b :: t) ++ [x]) hz]
    exact hz

lemma heapPop_pair_eq (a b : HuffmanNode) :
    heapPop [a, b] = some (a, popRestructure [b]) := rfl

lemma popRestructure_singleton (b : HuffmanNode) : popRestructure [b] = [b] := by
  rw [popRestructure]
  have h1 : siftDownToBottom ([b] : List HuffmanNode).length 0 [b] = (0, [b]) := by
    rw [siftDownToBottom.eq_def]
    rw [if_neg (by simp), if_neg (by simp)]
  rw [h1]
  rw [siftUp.eq_def]
  rw [if_neg (by simp)]

lemma heapPop_pair (a b : HuffmanNode) : heapPop [a, b] = some (a, [b]) := by
  rw [heapPop_pair_eq, popRestructure_singleton]

lemma heapPop_rest_zero (l : List HuffmanNode) (h3 : 3 ≤ l.length) (hh : nheavy l ≤ 1)
    (x : HuffmanNode) (l' : List HuffmanNode) (hp : heapPop l = some (x, l'))
    (h2' : 2 ≤ l'.length) : (hget l' 0).weight = 0 := by
  obtain ⟨a, t, rfl⟩ : ∃ a t, l = a :: t := by
    cases l with
    | nil => simp at h3
    | cons a t => exact ⟨a, t, rfl⟩
  set L := a :: t with hL
  have hdl : L.dropLast.length = L.length - 1 := List.length_dropLast L
  have hne : ¬ (L.dropLast.length = 0) := by omega
  have he : heapPop L
      = if L.dropLast.length = 0 then some (hget L (L.length - 1), [])
        else some (hget L.dropLast 0,
          popRestructure (L.dropLast.set 0 (hget L (L.length - 1)))) := rfl
  rw [he, if_neg hne] at hp
  have hl' : l' = popRestructure (L.dropLast.set 0 (hget L (L.length - 1))) :=
    (congrArg Prod.snd (Option.some.inj hp)).symm
  have hlast : hget L (L.length - 1) = L.getLast (by simp [hL]) := by
    rw [hget, List.getD_eq_getElem _ _ (by omega), List.getLast_eq_getElem]
  have hsplit : (↑L : Multiset HuffmanNode)
      = ↑L.dropLast + {hget L (L.length - 1)} := by
    conv_lhs => rw [← List.dropLast_append_getLast (show L ≠ [] by simp [hL])]
    rw [← Multiset.coe_add, hlast, Multiset.coe_singleton]
  have hms := mset_set L.dropLast 0 (hget L (L.length - 1)) (by omega)
  have hcons : (↑L : Multiset HuffmanNode)
      = hget L.dropLast 0 ::ₘ ↑(L.dropLast.set 0 (hget L (L.length - 1))) := by
    rw [hsplit, ← Multiset.singleton_add,
      add_comm ({hget L.dropLast 0} : Multiset HuffmanNode) _]
    exact hms.symm
  have hhm : nheavy (L.dropLast.set 0 (hget L (L.length - 1))) ≤ 1 :=
    le_trans (nheavy_le_of_cons _ _ L hcons) hh
  rw [hl']
  exact popRestructure_zero_root _ (by rw [List.length_set]; omega) hhm

lemma ConcOK.nheavy_le {W : Nat} {l : List HuffmanNode} (h : ConcOK W l) :
    nheavy l ≤ 1 := by
  have hmono : l.countP (fun n => decide (n.weight ≠ 0))
      ≤ l.countP (· == HuffmanNode.Terminal 255 W) := by
    refine List.countP_mono_left ?_
    intro z hz hp
    rcases h.2 z hz with h' | h'
    · simp [h']
    · exfalso
      have := of_decide_eq_true hp
      exact this h'.1
  rw [nheavy]
  calc l.countP (fun n => decide (n.weight ≠ 0))
      ≤ l.countP (· == HuffmanNode.Terminal 255 W) := hmono
    _ = l.count (HuffmanNode.Terminal 255 W) := (List.count_eq_countP _ l).symm
    _ = (↑l : Multiset HuffmanNode).count (HuffmanNode.Terminal 255 W) :=
        (Multiset.coe_count _ l).symm
    _ = 1 := h.1

lemma buildLoop_conc (W : Nat) (hW : 0 < W) :
    ∀ (fuel : Nat) (l : List HuffmanNode) (ix : Nat → List Bool),
    l.length ≤ fuel + 1 → 2 ≤ l.length → ConcOK W l →
    (hget l 0).weight = 0 → ix 255 = [] →
    ∃ Z, (buildLoop fuel l ix).1 = .Interior Z (.Terminal 255 W) ∧
      (buildLoop fuel l ix).2 255 = [true] := by
  intro fuel
  induction fuel with
  | zero => intro l ix hlen h2 _ _ _; omega
  | succ fuel ih =>
    intro l ix hlen h2 hconc hroot0 hix
    by_cases hlen2 : l.length = 2
    · obtain ⟨a, b, rfl⟩ : ∃ a b, l = [a, b] := by
        match l, hlen2 with
        | [a, b], _ => exact ⟨a, b, rfl⟩
      have ha0 : a.weight = 0 := hroot0
      have hb : b = HuffmanNode.Terminal 255 W := by
        have hc0 : 0 < (↑[a, b] : Multiset HuffmanNode).count (.Terminal 255 W) := by
          rw [hconc.1]; omega
        have hmem : HuffmanNode.Terminal 255 W ∈ ([a, b] : List HuffmanNode) :=
          Multiset.mem_coe.mp (Multiset.count_pos.mp hc0)
        rcases List.mem_cons.mp hmem with h' | h'
        · exfalso
          rw [← h'] at ha0
          have : (HuffmanNode.Terminal 255 W).weight = W := rfl
          omega
        · rcases List.mem_cons.mp h' with h'' | h''
          · exact h''.symm
          · simp at h''
      subst hb
      have h255a : (255 : Nat) ∉ a.values := by
        rcases hconc.2 a (by simp) with h' | h'
        · exfalso
          rw [h'] at ha0
          have : (HuffmanNode.Terminal 255 W).weight = W := rfl
          omega
        · exact h'.2
      have hstep : buildLoop (fuel + 1) [a, HuffmanNode.Terminal 255 W] ix
          = buildLoop fuel (heapPush [] (.Interior a (.Terminal 255 W)))
              (pushBits (pushBits ix a.values false)
                (HuffmanNode.Terminal 255 W).values true) := by
        simp only [buildLoop, if_pos h2, heapPop_pair, Option.getD_some]
        rw [show heapPop [HuffmanNode.Terminal 255 W]
          = some (HuffmanNode.Terminal 255 W, []) from rfl]
        simp only [Option.getD_some]
      have hpush : heapPush [] (HuffmanNode.Interior a (.Terminal 255 W))
          = [HuffmanNode.Interior a (.Terminal 255 W)] := by
        rw [heapPush, siftUp.eq_def]
        rw [if_neg (by simp)]
        rfl
      rw [hstep, hpush, buildLoop_singleton]
      refine ⟨a, rfl, ?_⟩
      show pushBits (pushBits ix a.values false) (HuffmanNode.Terminal 255 W).values true 255
        = [true]
      rw [show (HuffmanNode.Terminal 255 W).values = [255] from rfl,
        pushBits_count_one [255] _ true 255 (by simp),
        pushBits_not_mem a.values ix false 255 h255a, hix, List.nil_append]
    · have h3 : 3 ≤ l.length := by omega
      obtain ⟨l₂, hpop1, hm1, hl1⟩ := heapPop_spec l
        (by intro h; rw [h] at h2; simp at h2)
      have hl₂2 : 2 ≤ l₂.length := by omega
      obtain ⟨l₃, hpop2, hm2, hl2⟩ := heapPop_spec l₂
        (by intro h; rw [h] at hl₂2; simp at hl₂2)
      have hxz : (hget l 0).weight = 0 := hroot0
      have hxl : hget l 0 ∈ l := hget_mem l 0 (by omega)
      have hTne : ∀ z : HuffmanNode, z.weight = 0 → z ≠ .Terminal 255 W := by
        intro z hz h
        rw [h] at hz
        have : (HuffmanNode.Terminal 255 W).weight = W := rfl
        omega
      have hxprops : 255 ∉ (hget l 0).values := by
        rcases hconc.2 (hget l 0) hxl with h' | h'
        · exact absurd h' (hTne _ hxz)
        · exact h'.2
      have hl₂root : (hget l₂ 0).weight = 0 :=
        heapPop_rest_zero l h3 hconc.nheavy_le (hget l 0) l₂ hpop1 hl₂2
      have hyl₂ : hget l₂ 0 ∈ l₂ := hget_mem l₂ 0 (by omega)
      have hyl : hget l₂ 0 ∈ l := by
        have ha : hget l₂ 0 ∈ (↑l : Multiset HuffmanNode) := by
          rw [hm1]
          exact Multiset.mem_cons_of_mem (Multiset.mem_coe.mpr hyl₂)
        exact Multiset.mem_coe.mp ha
      have hyprops : 255 ∉ (hget l₂ 0).values := by
        rcases hconc.2 (hget l₂ 0) hyl with h' | h'
        · exact absurd h' (hTne _ hl₂root)
        · exact h'.2
      have hmem3 : ∀ n ∈ l₃, n ∈ l := by
        intro n hn
        have ha : n ∈ (↑l₂ : Multiset HuffmanNode) := by
          rw [hm2]
          exact Multiset.mem_cons_of_mem (Multiset.mem_coe.mpr hn)
        have hb2 : n ∈ (↑l : Multiset HuffmanNode) := by
          rw [hm1]
          exact Multiset.mem_cons_of_mem ha
        exact Multiset.mem_coe.mp hb2
      have hcl₃ : (↑l₃ : Multiset HuffmanNode).count (HuffmanNode.Terminal 255 W) = 1 := by
        have e1 := hconc.1
        rw [hm1, Multiset.count_cons_of_ne (fun h => hTne _ hxz h.symm) _] at e1
        rw [hm2, Multiset.count_cons_of_ne (fun h => hTne _ hl₂root h.symm) _] at e1
        exact e1
      have hstep : buildLoop (fuel + 1) l ix
          = buildLoop fuel (heapPush l₃ (.Interior (hget l 0) (hget l₂ 0)))
              (pushBits (pushBits ix (hget l 0).values false) (hget l₂ 0).values true) := by
        simp only [buildLoop, if_pos h2, hpop1, Option.getD_some, hpop2]
      rw [hstep]
      have hpushm := (heapPush_spec l₃ (.Interior (hget l 0) (hget l₂ 0))).1
      have hpushlen := (heapPush_spec l₃ (.Interior (hget l 0) (hget l₂ 0))).2
      apply ih
      · omega
      · omega
      · constructor
        · have hne2 : HuffmanNode.Terminal 255 W
              ≠ HuffmanNode.Interior (hget l 0) (hget l₂ 0) := fun h =>
            HuffmanNode.noConfusion h
          rw [hpushm, Multiset.count_cons_of_ne hne2 _]
          exact hcl₃
        · intro z hz
          have hz' : z = HuffmanNode.Interior (hget l 0) (hget l₂ 0)
              ∨ z ∈ (↑l₃ : Multiset HuffmanNode) := by
            have ha : z ∈ (↑(heapPush l₃ (.Interior (hget l 0) (hget l₂ 0)))
                : Multiset HuffmanNode) := Multiset.mem_coe.mpr hz
            rw [hpushm] at ha
            exact Multiset.mem_cons.mp ha
          rcases hz' with rfl | hz3
          · right
            constructor
            · show (hget l 0).weight + (hget l₂ 0).weight = 0
              omega
            · show 255 ∉ (hget l 0).values ++ (hget l₂ 0).values
              rw [List.mem_append]
              push_neg
              exact ⟨hxprops, hyprops⟩
          · exact hconc.2 z (hmem3 z (Multiset.mem_coe.mp hz3))
      · refine heapPush_zero_root l₃ _ ?_ ?_
        · show (hget l 0).weight + (hget l₂ 0).weight = 0
          omega
        · intro h2''
          exact heapPop_rest_zero l₂ (by omega)
            (le_trans (nheavy_le_of_cons (hget l 0) l₂ l hm1) hconc.nheavy_le)
            (hget l₂ 0) l₃ hpop2 h2''
      · rw [pushBits_not_mem (hget l₂ 0).values _ true 255 hyprops,
          pushBits_not_mem (hget l 0).values ix false 255 hxprops, hix]

lemma hget_init (c : Nat → Nat) (i : Nat) (hi : i < 256) :
    hget ((List.range 256).map fun k => HuffmanNode.Terminal k (c k)) i
      = .Terminal i (c i) := by
  rw [hget, List.getD_eq_getElem _ _ (by simp only [List.length_map, List.length_range]; omega)]
  simp

lemma init_length (c : Nat → Nat) :
    ((List.range 256).map fun k => HuffmanNode.Terminal k (c k)).length = 256 := by
  simp

lemma siftDown_conc_id (c : Nat → Nat) (W : Nat) (h255 : c 255 = W)
    (h0 : ∀ i, i < 256 → i ≠ 255 → c i = 0) (n : Nat) (hn : n ≤ 127) :
    siftDown n ((List.range 256).map fun k => HuffmanNode.Terminal k (c k))
      = (List.range 256).map fun k => HuffmanNode.Terminal k (c k) := by
  set L := (List.range 256).map fun k => HuffmanNode.Terminal k (c k) with hLdef
  have hL : L.length = 256 := init_length c
  show siftDownRange L.length n L = L
  rw [hL]
  rcases Nat.lt_or_ge n 127 with hcase | hcase
  · have hwn : (hget L n).weight = 0 := by
      rw [hLdef, hget_init c n (by omega)]
      show c n = 0
      exact h0 n (by omega) (by omega)
    have hcond : (hget L n).weight ≤ (hget L (sdChild L n)).weight := by
      rw [hwn]
      exact Nat.zero_le _
    rw [siftDownRange.eq_def, if_pos (show 2 * n + 3 ≤ 256 by omega), if_pos hcond]
  · have h127 : n = 127 := by omega
    subst h127
    rw [siftDownRange.eq_def, if_neg (by omega)]
    rw [if_neg ?hneg]
    case hneg =>
      intro hcontra
      have h1 := hcontra.2
      rw [hLdef, hget_init c (2 * 127 + 1) (by omega), hget_init c 127 (by omega)] at h1
      have hc127 : c 127 = 0 := h0 127 (by omega) (by omega)
      simp only [HuffmanNode.weight] at h1
      omega

lemma rebuildAux_conc_id (c : Nat → Nat) (W : Nat) (h255 : c 255 = W)
    (h0 : ∀ i, i < 256 → i ≠ 255 → c i = 0) : ∀ n, n ≤ 128 →
    rebuildAux n ((List.range 256).map fun k => HuffmanNode.Terminal k (c k))
      = (List.range 256).map fun k => HuffmanNode.Terminal k (c k) := by
  intro n
  induction n with
  | zero => intro _; rfl
  | succ n ih =>
    intro h
    show rebuildAux n (siftDown n _) = _
    rw [siftDown_conc_id c W h255 h0 n (by omega), ih (by omega)]

lemma rebuild_conc_id (c : Nat → Nat) (W : Nat) (h255 : c 255 = W)
    (h0 : ∀ i, i < 256 → i ≠ 255 → c i = 0) :
    rebuild ((List.range 256).map fun k => HuffmanNode.Terminal k (c k))
      = (List.range 256).map fun k => HuffmanNode.Terminal k (c k) := by
  show rebuildAux (((List.range 256).map fun k => HuffmanNode.Terminal k (c k)).length / 2)
      ((List.range 256).map fun k => HuffmanNode.Terminal k (c k)) = _
  rw [init_length]
  exact rebuildAux_conc_id c W h255 h0 128 le_rfl

lemma conc_init (c : Nat → Nat) (W : Nat) (hW : 0 < W) (h255 : c 255 = W)
    (h0 : ∀ i, i < 256 → i ≠ 255 → c i = 0) :
    ConcOK W ((List.range 256).map fun k => HuffmanNode.Terminal k (c k)) := by
  constructor
  · have hnd : ((List.range 256).map fun k => HuffmanNode.Terminal k (c k)).Nodup := by
      refine List.Nodup.map ?_ (List.nodup_range 256)
      intro i j h
      injection h with h1 h2
    have hmem : HuffmanNode.Terminal 255 W
        ∈ (List.range 256).map fun k => HuffmanNode.Terminal k (c k) := by
      rw [← h255]
      exact List.mem_map_of_mem _ (by simp)
    rw [Multiset.coe_count]
    exact List.count_eq_one_of_mem hnd hmem
  · intro z hz
    obtain ⟨i, hi, rfl⟩ := List.mem_map.mp hz
    have hi' : i < 256 := List.mem_range.mp hi
    by_cases h255i : i = 255
    · subst h255i
      left
      rw [h255]
    · right
      constructor
      · exact h0 i hi' h255i
      · show (255 : Nat) ∉ [i]
        simp only [List.mem_singleton]
        omega

lemma build_concentrated (c : Nat → Nat) (W : Nat) (hW : 0 < W) (h255 : c 255 = W)
    (h0 : ∀ i, i < 256 → i ≠ 255 → c i = 0) :
    ∃ Z, (build c).root = .Interior Z (.Terminal 255 W) ∧ (build c).index 255 = [true] := by
  have hrid := rebuild_conc_id c W h255 h0
  have hcon := conc_init c W hW h255 h0
  have hroot0 : (hget ((List.range 256).map fun k => HuffmanNode.Terminal k (c k)) 0).weight
      = 0 := by
    rw [hget_init c 0 (by omega)]
    exact h0 0 (by omega) (by omega)
  obtain ⟨Z, h1, h2⟩ := buildLoop_conc W hW 256
    ((List.range 256).map fun k => HuffmanNode.Terminal k (c k)) (fun _ => [])
    (by rw [init_length]; omega) (by rw [init_length]; omega) hcon hroot0 rfl
  refine ⟨Z, ?_, ?_⟩
  · rw [build_root_eq, buildPair_eq, hrid]
    exact h1
  · rw [build_index_eq, buildPair_eq, hrid]
    exact h2


/-! ## Encoder helper lemmas -/

lemma processOutput_aligned (e : HuffmanEncoder) (force : Bool)
    (h : e.buffer_out.length % 8 = 0) :
    processOutput e force = ((toU8s e.buffer_out).reverse, { e with buffer_out := [] }) := by
  simp [processOutput, h]

lemma processOutput_misaligned (e : HuffmanEncoder) (h : ¬ e.buffer_out.length % 8 = 0) :
    processOutput e false = ([], e) := by
  simp [processOutput, h]

lemma toU8s_nil : toU8s [] = [] := rfl

lemma encodeAll_eq (t : HuffmanTree) :
    ∀ (bytes : List Nat) (out : List Bool),
      encodeAll t bytes out = out ++ bytes.flatMap fun b => asVec (t.index b) := by
  intro bytes
  induction bytes with
  | nil => intro out; simp [encodeAll]
  | cons a l ih =>
    intro out
    have step : encodeAll t (a :: l) out = encodeAll t l (out ++ asVec (t.index a)) := rfl
    rw [step, ih, List.flatMap_cons, List.append_assoc]

lemma length_flatMap_replicate (n x : Nat) (f : Nat → List Bool) :
    ((List.replicate n x).flatMap f).length = n * (f x).length := by
  induction n with
  | zero => simp
  | succ n ih =>
    rw [List.replicate_succ, List.flatMap_cons, List.length_append, ih]
    ring

lemma processBuffer_some (e : HuffmanEncoder) (t : HuffmanTree) (force : Bool)
    (ht : e.tree = some t) :
    e.processBuffer force
      = .ok (processOutput
          { e with buffer_out := encodeAll t e.buffer_in e.buffer_out, buffer_in := [] } force) := by
  simp only [HuffmanEncoder.processBuffer, ht]

lemma processBuffer_none_trigger (e : HuffmanEncoder) (force : Bool)
    (ht : e.tree = none)
    (hgo : force = true ∨ e.build_tree_after < e.buffer_in.length) :
    e.processBuffer force
      = .ok (processOutput
          (processOutput
            { e with tree := some (build e.counts), buffer_in := [],
                     buffer_out := encodeAll (build e.counts) e.buffer_in
                       (e.buffer_out ++ asVec (bytesToBools (serializeBytes e.counts))) } false).2
          force) := by
  simp only [HuffmanEncoder.processBuffer, ht]
  rw [if_pos hgo]

lemma processBuffer_trigger_aligned (e : HuffmanEncoder) (force : Bool)
    (ht : e.tree = none)
    (hgo : force = true ∨ e.build_tree_after < e.buffer_in.length)
    (halign : (encodeAll (build e.counts) e.buffer_in
        (e.buffer_out ++ asVec (bytesToBools (serializeBytes e.counts)))).length % 8 = 0) :
    e.processBuffer force
      = .ok ([], { e with tree := some (build e.counts), buffer_in := [], buffer_out := [] }) := by
  rw [processBuffer_none_trigger e force ht hgo]
  simp [processOutput, halign, toU8s_nil]

lemma processBuffer_trigger_misaligned (e : HuffmanEncoder)
    (ht : e.tree = none)
    (hgo : (false = true) ∨ e.build_tree_after < e.buffer_in.length)
    (hmis : ¬ (encodeAll (build e.counts) e.buffer_in
        (e.buffer_out ++ asVec (bytesToBools (serializeBytes e.counts)))).length % 8 = 0) :
    e.processBuffer false
      = .ok ([], { e with tree := some (build e.counts), buffer_in := [],
                          buffer_out := encodeAll (build e.counts) e.buffer_in
                            (e.buffer_out ++ asVec (bytesToBools (serializeBytes e.counts))) }) := by
  rw [processBuffer_none_trigger e false ht hgo]
  simp [processOutput, hmis]

lemma process_none_shape (e : HuffmanEncoder) (buf : List Nat) (ht : e.tree = none) :
    HuffmanEncoder.process e buf
      = HuffmanEncoder.processBuffer
          { e with counts := pushAll e.counts buf, buffer_in := e.buffer_in ++ buf } false := by
  simp only [HuffmanEncoder.process, ht, Option.isNone_none, if_true]

lemma process_some_shape (e : HuffmanEncoder) (buf : List Nat) (t : HuffmanTree)
    (ht : e.tree = some t) :
    HuffmanEncoder.process e buf
      = HuffmanEncoder.processBuffer { e with buffer_in := e.buffer_in ++ buf } false := by
  simp only [HuffmanEncoder.process, ht, Option.isNone_some, Bool.false_eq_true, if_false]

lemma processBuffer_trigger_aligned_mk (c : Nat → Nat) (bin : List Nat) (bout : List Bool)
    (thr : Nat) (force : Bool)
    (hgo : force = true ∨ thr < bin.length)
    (halign : (encodeAll (build c) bin
        (bout ++ asVec (bytesToBools (serializeBytes c)))).length % 8 = 0) :
    HuffmanEncoder.processBuffer ⟨none, c, bin, bout, thr⟩ force
      = .ok ([], ⟨some (build c), c, [], [], thr⟩) :=
  processBuffer_trigger_aligned ⟨none, c, bin, bout, thr⟩ force rfl hgo halign

lemma processBuffer_trigger_misaligned_mk (c : Nat → Nat) (bin : List Nat) (bout : List Bool)
    (thr : Nat)
    (hgo : (false = true) ∨ thr < bin.length)
    (hmis : ¬ (encodeAll (build c) bin
        (bout ++ asVec (bytesToBools (serializeBytes c)))).length % 8 = 0) :
    HuffmanEncoder.processBuffer ⟨none, c, bin, bout, thr⟩ false
      = .ok ([], ⟨some (build c), c, [],
          encodeAll (build c) bin (bout ++ asVec (bytesToBools (serializeBytes c))), thr⟩) :=
  processBuffer_trigger_misaligned ⟨none, c, bin, bout, thr⟩ rfl hgo hmis

/-- A flushed or freshly-built encoder state with empty buffers: `flush` packs
the empty output buffer and returns no bytes. -/
lemma flush_drained (t : HuffmanTree) (c : Nat → Nat) (thr : Nat) :
    HuffmanEncoder.flush ⟨some t, c, [], [], thr⟩ = .ok ([], ⟨some t, c, [], [], thr⟩) := by
  show HuffmanEncoder.processBuffer ⟨some t, c, [], [], thr⟩ true = _
  rw [processBuffer_some ⟨some t, c, [], [], thr⟩ t true rfl]
  show Except.ok (processOutput ⟨some t, c, [], [], thr⟩ true) = _
  rw [processOutput_aligned ⟨some t, c, [], [], thr⟩ true rfl]
  rw [toU8s_nil, List.reverse_nil]

lemma process_fresh_trigger_aligned (thr : Nat) (buf : List Nat)
    (hgo : thr < buf.length)
    (halign : (encodeAll (build (pushAll (fun _ => 0) buf)) buf
        (([] : List Bool)
          ++ asVec (bytesToBools (serializeBytes (pushAll (fun _ => 0) buf))))).length % 8 = 0) :
    HuffmanEncoder.process (freshEncoder thr) buf
      = .ok ([], ⟨some (build (pushAll (fun _ => 0) buf)), pushAll (fun _ => 0) buf, [], [], thr⟩) := by
  rw [process_none_shape (freshEncoder thr) buf rfl]
  exact processBuffer_trigger_aligned_mk (pushAll (fun _ => 0) buf) buf [] thr false
    (Or.inr hgo) halign

lemma process_fresh_trigger_misaligned (thr : Nat) (buf : List Nat)
    (hgo : thr < buf.length)
    (hmis : ¬ (encodeAll (build (pushAll (fun _ => 0) buf)) buf
        (([] : List Bool)
          ++ asVec (bytesToBools (serializeBytes (pushAll (fun _ => 0) buf))))).length % 8 = 0) :
    HuffmanEncoder.process (freshEncoder thr) buf
      = .ok ([], ⟨some (build (pushAll (fun _ => 0) buf)), pushAll (fun _ => 0) buf, [],
          encodeAll (build (pushAll (fun _ => 0) buf)) buf
            (([] : List Bool)
              ++ asVec (bytesToBools (serializeBytes (pushAll (fun _ => 0) buf)))), thr⟩) := by
  rw [process_none_shape (freshEncoder thr) buf rfl]
  exact processBuffer_trigger_misaligned_mk (pushAll (fun _ => 0) buf) buf [] thr
    (Or.inr hgo) hmis

lemma process_drained_some_aligned (t : HuffmanTree) (c : Nat → Nat) (bout : List Bool)
    (thr : Nat) (buf : List Nat)
    (halign : (encodeAll t buf bout).length % 8 = 0) :
    HuffmanEncoder.process ⟨some t, c, [], bout, thr⟩ buf
      = .ok ((toU8s (encodeAll t buf bout)).reverse, ⟨some t, c, [], [], thr⟩) := by
  rw [process_some_shape ⟨some t, c, [], bout, thr⟩ buf t rfl]
  show HuffmanEncoder.processBuffer ⟨some t, c, buf, bout, thr⟩ false = _
  rw [processBuffer_some ⟨some t, c, buf, bout, thr⟩ t false rfl]
  show Except.ok (processOutput ⟨some t, c, [], encodeAll t buf bout, thr⟩ false) = _
  rw [processOutput_aligned ⟨some t, c, [], encodeAll t buf bout, thr⟩ false halign]

/-! ## Decoder helper lemmas -/

lemma decProcess_none_out (d : HuffmanDecoder) (buf : List Nat) (ht : d.tree = none) :
    ∃ d', HuffmanDecoder.process d buf = .ok ([], d') := by
  simp only [HuffmanDecoder.process, ht]
  split
  · exact ⟨_, rfl⟩
  · exact ⟨_, rfl⟩

lemma decProcess_header (d : HuffmanDecoder) (bytes : List Nat)
    (ht : d.tree = none) (hb : d.buffer_in = [])
    (hlen : bytes.length = 2048) (hlt : ∀ b ∈ bytes, b < 256) :
    HuffmanDecoder.process d bytes
      = .ok ([], { tree := some (build (parseCounts bytes)), buffer_in := [] }) := by
  have hq : pushBackU8s d.buffer_in bytes = (bytesToBools bytes).reverse := by
    rw [pushBackU8s, hb, List.nil_append]
  have hqlen : (bytesToBools bytes).reverse.length = 16384 := by
    rw [List.length_reverse, length_bytesToBools, hlen]
  have hvec : asVec (bytesToBools bytes).reverse = bytesToBools bytes := by
    rw [asVec, List.reverse_reverse]
  have htake : takeU8s (bytesToBools bytes).reverse (8 * 256) = bytes := by
    rw [takeU8s, hqlen]
    norm_num
    rw [hvec, List.take_of_length_le (by rw [length_bytesToBools, hlen])]
    exact boolsToBytes_bytesToBools bytes hlt
  have hdrop : (asVec (bytesToBools bytes).reverse).drop (64 * 256) = [] := by
    rw [hvec]
    exact List.drop_eq_nil_of_le (by rw [length_bytesToBools, hlen])
  simp only [HuffmanDecoder.process, ht, hq]
  rw [if_pos (by rw [hqlen])]
  rw [htake, hdrop]

lemma decWalk_all_trues (l : HuffmanNode) (v w : Nat) :
    ∀ n, decWalk l (.Terminal v w) (.Interior l (.Terminal v w)) [] (List.replicate n true)
      = (List.replicate n v, []) := by
  intro n
  induction n with
  | zero =>
    simp only [List.replicate_zero]
    rw [decWalk.eq_def]
  | succ n ih =>
    rw [List.replicate_succ, decWalk.eq_def]
    dsimp only
    rw [decWalk.eq_def]
    rw [show (if true = true then HuffmanNode.Terminal v w else l) = HuffmanNode.Terminal v w from rfl]
    dsimp only
    rw [ih]
    simp [List.replicate_succ]

/-! ## Further small consequences used by the claim theorems -/

lemma length_asVec (q : List Bool) : (asVec q).length = q.length := by
  simp [asVec]

lemma length_encodeAll (t : HuffmanTree) (bytes : List Nat) (out : List Bool) :
    (encodeAll t bytes out).length
      = out.length + (bytes.flatMap fun b => asVec (t.index b)).length := by
  rw [encodeAll_eq, List.length_append]


lemma header_asVec_length (c : Nat → Nat) :
    (asVec (bytesToBools (serializeBytes c))).length = 16384 := by
  rw [length_asVec, length_bytesToBools, length_serializeBytes]

lemma encodeAll_rep_length (t : HuffmanTree) (n b : Nat) (pre : List Bool) :
    (encodeAll t (List.replicate n b) pre).length
      = pre.length + n * (t.index b).length := by
  rw [length_encodeAll, length_flatMap_replicate, length_asVec]

lemma decProcess_255_shape (t : HuffmanTree) (Z : HuffmanNode) (w : Nat)
    (hroot : t.root = .Interior Z (.Terminal 255 w)) :
    HuffmanDecoder.process ⟨some t, []⟩ [255]
      = .ok (List.replicate 8 255, ⟨some t, []⟩) := by
  have hq : pushBackU8s ([] : List Bool) [255] = List.replicate 8 true := by
    rw [pushBackU8s, List.nil_append]
    have hbits : bytesToBools [255] = List.replicate 8 true := by decide
    rw [hbits, List.reverse_replicate]
  simp only [HuffmanDecoder.process, hq, hroot]
  rw [decWalk_all_trues Z 255 w 8]

lemma pushAll_replicate (b : Nat) :
    ∀ (n : Nat) (c : Nat → Nat) (v : Nat),
      pushAll c (List.replicate n b) v = if v = b then c b + n else c v := by
  intro n
  induction n with
  | zero =>
    intro c v
    show c v = _
    split
    · rename_i h
      subst h
      omega
    · rfl
  | succ n ih =>
    intro c v
    show pushAll (Function.update c b (c b + 1)) (List.replicate n b) v = _
    rw [ih (Function.update c b (c b + 1)) v]
    by_cases hv : v = b
    · subst hv
      rw [if_pos rfl, if_pos rfl, Function.update_same]
      omega
    · rw [if_neg hv, if_neg hv, Function.update_noteq hv]

lemma getD_flatMap8 : ∀ (m : Nat) (f : Nat → List Nat), (∀ k, (f k).length = 8) →
    ∀ i j, i < m → j < 8 →
      ((List.range m).flatMap f).getD (i * 8 + j) 0 = (f i).getD j 0 := by
  intro m
  induction m with
  | zero =>
    intro f hf i j hi hj
    exact absurd hi (Nat.not_lt_zero i)
  | succ m ih =>
    intro f hf i j hi hj
    rw [List.range_succ_eq_map, List.flatMap_cons]
    cases i with
    | zero =>
      rw [List.getD_append _ _ _ _ (by rw [hf 0]; omega)]
      norm_num
    | succ i' =>
      rw [List.getD_append_right _ _ _ _ (by rw [hf 0]; omega)]
      rw [hf 0, show (i' + 1) * 8 + j - 8 = i' * 8 + j from by omega]
      rw [List.flatMap_map]
      exact ih (fun k => f (k + 1)) (fun k => hf (k + 1)) i' j (by omega) hj

lemma u64be_getD_lt (n j : Nat) (hn : n < 256) (hj : j < 7) : (u64be n).getD j 0 = 0 := by
  show ((List.range 8).map fun k => n / 2 ^ (8 * (7 - k)) % 256).getD j 0 = 0
  rw [List.getD_eq_getElem _ _ (by simp only [List.length_map, List.length_range]; omega)]
  simp only [List.getElem_map, List.getElem_range]
  have h8 : 256 ≤ 2 ^ (8 * (7 - j)) := by
    calc (256 : Nat) = 2 ^ 8 := by norm_num
      _ ≤ 2 ^ (8 * (7 - j)) := Nat.pow_le_pow_right (by norm_num) (by omega)
  rw [Nat.div_eq_of_lt (by omega), Nat.zero_mod]

lemma u64be_getD_last (n : Nat) (hn : n < 256) : (u64be n).getD 7 0 = n := by
  show ((List.range 8).map fun k => n / 2 ^ (8 * (7 - k)) % 256).getD 7 0 = n
  rw [List.getD_eq_getElem _ _ (by simp only [List.length_map, List.length_range]; omega)]
  simp only [List.getElem_map, List.getElem_range]
  norm_num
  omega

/-- For counters below 256 the decoder's buggy shift (`7 - j` bits instead of
`8 * (7 - j)`) is invisible: only the last header byte of each counter is
nonzero and it is shifted by `7 - 7 = 0`, so the parse recovers the counter
exactly. -/
lemma parseCounts_serializeBytes (c : Nat → Nat) (i : Nat) (hi : i < 256) (hc : c i < 256) :
    parseCounts (serializeBytes c) i = c i := by
  have hget8 : ∀ j, j < 8 → (serializeBytes c).getD (i * 8 + j) 0 = (u64be (c i)).getD j 0 := by
    intro j hj
    exact getD_flatMap8 256 (fun k => u64be (c k)) (fun k => length_u64be (c k)) i j hi hj
  show (List.range 8).foldl
      (fun val j => val ||| ((serializeBytes c).getD (i * 8 + j) 0 <<< (7 - j))) 0 = c i
  rw [show List.range 8 = [0, 1, 2, 3, 4, 5, 6, 7] from by decide]
  simp only [List.foldl_cons, List.foldl_nil]
  rw [hget8 0 (by omega), hget8 1 (by omega), hget8 2 (by omega), hget8 3 (by omega),
    hget8 4 (by omega), hget8 5 (by omega), hget8 6 (by omega), hget8 7 (by omega)]
  rw [u64be_getD_lt (c i) 0 hc (by omega), u64be_getD_lt (c i) 1 hc (by omega),
    u64be_getD_lt (c i) 2 hc (by omega), u64be_getD_lt (c i) 3 hc (by omega),
    u64be_getD_lt (c i) 4 hc (by omega), u64be_getD_lt (c i) 5 hc (by omega),
    u64be_getD_lt (c i) 6 hc (by omega), u64be_getD_last (c i) hc]
  simp

/-! ## Claim theorems -/

set_option maxRecDepth 4096

/-- Claim C8 (confirmed): for every counts array — including all-zero counts
and counts concentrated on a single byte value — `build()` yields a tree whose
leaves, read off by the source's own `values()` traversal, are a permutation
of the 256 byte values `0, …, 255`: each byte value occurs exactly once, and
a degenerate one-symbol tree never occurs. -/
theorem tree_completeness (c : Nat → Nat) :
    ((build c).root).values.Perm (List.range 256) := by
  have h := (build_main c).1
  exact Multiset.coe_eq_coe.mp h

/-- Claim C9 (confirmed): for every counts array and byte value `b`, the bit
sequence the encoder actually appends for `b` — the index entry as consumed by
`encode` and `copy_from`, i.e. the `as_vec` of the stored `BitQueue` — equals
the root-to-leaf path to `b`'s leaf in the built tree, 0 for left and 1 for
right, in root-to-leaf order. -/
theorem code_equals_root_to_leaf_path (c : Nat → Nat) (b : Nat) (hb : b < 256) :
    pathTo (build c).root b = some (asVec ((build c).index b)) := by
  obtain ⟨hm, hpath⟩ := build_main c
  have hbmem : b ∈ (build c).root.values := by
    have h1 : b ∈ ((build c).root.values : Multiset Nat) := by
      rw [hm, Multiset.mem_coe, List.mem_range]
      exact hb
    exact Multiset.mem_coe.mp h1
  rw [hpath b hbmem, asVec]

/-- Witness for C9 at a concrete input. -/
theorem code_equals_root_to_leaf_path_witness :
    65 < 256 ∧ pathTo (build fun _ => 0).root 65 = some (asVec ((build fun _ => 0).index 65)) :=
  ⟨by norm_num, code_equals_root_to_leaf_path (fun _ => 0) 65 (by norm_num)⟩

/-- Claim C4 (code bug): the claim says `to_u8s()` returns `⌈n/8⌉` bytes
holding all `n` bits, zero-padding the final partial byte.  In fact
`partial_to_u8s` clamps the requested `len/8 + 1` bytes back down to
`len/8`, so a 9-bit queue packs to a single byte and the ninth bit is
silently dropped. -/
theorem to_u8s_code_bug :
    toU8s (List.replicate 9 true) = [255] ∧ (toU8s (List.replicate 9 true)).length ≠ 2 := by
  constructor
  · decide
  · decide

/-- Claim C10 (confirmed): `HuffmanEncoder::process`, `HuffmanEncoder::flush`
and `HuffmanDecoder::process` return `Ok` on every input and state; no code
path in the codec constructs a `CodecError`. -/
theorem codec_never_errors (e : HuffmanEncoder) (buf : List Nat)
    (d : HuffmanDecoder) (buf2 : List Nat) :
    (∃ p, HuffmanEncoder.process e buf = .ok p) ∧
    (∃ p, HuffmanEncoder.flush e = .ok p) ∧
    (∃ p, HuffmanDecoder.process d buf2 = .ok p) := by
  have hpb : ∀ (e' : HuffmanEncoder) (force : Bool), ∃ p, e'.processBuffer force = .ok p := by
    intro e' force
    cases h : e'.tree with
    | some t => exact ⟨_, processBuffer_some e' t force h⟩
    | none =>
      simp only [HuffmanEncoder.processBuffer, h]
      split
      · exact ⟨_, rfl⟩
      · exact ⟨_, rfl⟩
  refine ⟨?_, ?_, ?_⟩
  · simp only [HuffmanEncoder.process]
    exact hpb _ _
  · simp only [HuffmanEncoder.flush]
    exact hpb _ _
  · cases h : d.tree with
    | some t =>
      simp only [HuffmanDecoder.process, h]
      cases t.root with
      | Interior l r => exact ⟨_, rfl⟩
      | Terminal v w => exact ⟨_, rfl⟩
    | none =>
      simp only [HuffmanDecoder.process, h]
      split
      · exact ⟨_, rfl⟩
      · exact ⟨_, rfl⟩

/-- Claim C2 (code bug): the claim (and the spec's example) says that on a
fresh encoder a single `flush()` returns exactly the 2048-byte all-zero
header.  In fact the triggered tree build ends with a recursive
`process_buffer(false)` whose returned bytes are discarded while `buffer_out`
is cleared; the header is 16384 bits, which is byte-aligned, so that recursive
call packs the whole header and throws it away and `flush` returns no bytes at
all.  The decoder half of the claim does hold: fed the 2048 zero bytes, a
fresh decoder emits the empty output. -/
theorem empty_input_flush_code_bug :
    (∃ e', HuffmanEncoder.flush (freshEncoder 1048576) = .ok ([], e')) ∧
    (∃ d', HuffmanDecoder.process freshDecoder (List.replicate 2048 0) = .ok ([], d')) := by
  constructor
  · refine ⟨⟨some (build fun _ => 0), fun _ => 0, [], [], 1048576⟩, ?_⟩
    show HuffmanEncoder.processBuffer ⟨none, fun _ => 0, [], [], 1048576⟩ true = _
    refine processBuffer_trigger_aligned_mk (fun _ => 0) [] [] 1048576 true (Or.inl rfl) ?_
    rw [encodeAll_eq]
    simp only [List.flatMap_nil, List.append_nil, List.nil_append]
    rw [header_asVec_length]
  · exact ⟨_, decProcess_header freshDecoder _ rfl rfl (List.length_replicate 2048 0)
      (fun b hb => by rw [List.eq_of_mem_replicate hb]; norm_num)⟩

/-- Claim C1 (code bug): round-tripping fails.  For `S` = eight `0xFF` bytes
and the binary's threshold 1048576, `process(S)` returns no bytes (still
collecting) and `flush()` also returns no bytes: the tree build appends the
16384-bit header plus eight copies of the code for `0xFF` — `16384 + 8·L`
bits, byte-aligned whatever the code length `L` is — so the discarded
recursive `process_buffer(false)` call packs and throws away the entire
stream.  Feeding the concatenated encoder output (nothing) to a fresh
decoder yields nothing, which differs from `S`. -/
theorem roundtrip_code_bug :
    ∃ e1 e2 d1,
      HuffmanEncoder.process (freshEncoder 1048576) (List.replicate 8 255) = .ok ([], e1) ∧
      HuffmanEncoder.flush e1 = .ok ([], e2) ∧
      HuffmanDecoder.process freshDecoder ([] ++ []) = .ok ([], d1) ∧
      ([] : List Nat) ≠ List.replicate 8 255 := by
  refine ⟨⟨none, pushAll (fun _ => 0) (List.replicate 8 255), List.replicate 8 255, [], 1048576⟩,
    ⟨some (build (pushAll (fun _ => 0) (List.replicate 8 255))),
      pushAll (fun _ => 0) (List.replicate 8 255), [], [], 1048576⟩,
    ⟨none, []⟩, ?_, ?_, ?_, ?_⟩
  · rfl
  · show HuffmanEncoder.processBuffer
      ⟨none, pushAll (fun _ => 0) (List.replicate 8 255), List.replicate 8 255, [], 1048576⟩ true = _
    exact processBuffer_trigger_aligned_mk (pushAll (fun _ => 0) (List.replicate 8 255))
      (List.replicate 8 255) [] 1048576 true (Or.inl rfl)
      (by rw [List.nil_append, encodeAll_rep_length, header_asVec_length]; omega)
  · rfl
  · decide

/-- Claim C3 (code bug): the decoder does slice off exactly the first 2048
bytes once buffered, but its counter parse shifts each header byte by
`7 - j` bits instead of `8 * (7 - j)`, so it does not recover the counts the
encoder serialized: for a counts array with `counts[0] = 256` (big-endian
bytes `00 00 00 00 00 00 01 00`) the parsed value is `1 <<< 1 = 2`. -/
theorem header_parse_code_bug :
    HuffmanDecoder.process freshDecoder (serializeBytes fun i => if i = 0 then 256 else 0)
        = .ok ([], { tree := some (build (parseCounts
            (serializeBytes fun i => if i = 0 then 256 else 0))), buffer_in := [] }) ∧
    parseCounts (serializeBytes fun i => if i = 0 then 256 else 0) 0 = 2 ∧
    parseCounts (serializeBytes fun i => if i = 0 then 256 else 0) 0
      ≠ (fun i => if i = 0 then 256 else 0 : Nat → Nat) 0 := by
  refine ⟨?_, ?_, ?_⟩
  · exact decProcess_header freshDecoder _ rfl rfl (length_serializeBytes _) (serializeBytes_lt _)
  · decide
  · decide

/-- Claim C6 (code bug): decoder output is not chunking-invariant.  Take the
2048-byte header that serializes counts with `counts[255] = 8` and all other
counters 0 (every counter is below 256, so the decoder's buggy shift parses
them back exactly), followed by one `0xFF` payload byte.  Fed in a single
`process` call, the header branch consumes the header, builds the tree and
returns with the payload bits still buffered, emitting nothing; fed as two
calls (header, then `0xFF`), the second call walks the tree — whose root is
`Interior(_, Terminal(255, 8))`, so eight `true` bits emit eight `0xFF`
bytes — and the concatenated outputs differ.  (`push_back_u8s` also appends
each chunk's bits in reversed order, and the unresolved path is restored at
the back of the queue, not the front.) -/
theorem decoder_resumption_code_bug :
    ∃ dA dB1 dB2,
      HuffmanDecoder.process freshDecoder
        (serializeBytes (fun i => if i = 255 then 8 else 0) ++ [255]) = .ok ([], dA) ∧
      HuffmanDecoder.process freshDecoder
        (serializeBytes (fun i => if i = 255 then 8 else 0)) = .ok ([], dB1) ∧
      HuffmanDecoder.process dB1 [255] = .ok (List.replicate 8 255, dB2) ∧
      ([] : List Nat) ≠ [] ++ List.replicate 8 255 := by
  obtain ⟨dA, hA⟩ := decProcess_none_out freshDecoder
    (serializeBytes (fun i => if i = 255 then 8 else 0) ++ [255]) rfl
  have hparse : ∀ v, v < 256 →
      parseCounts (serializeBytes (fun i => if i = 255 then 8 else 0)) v
        = if v = 255 then 8 else 0 := by
    intro v hv
    refine parseCounts_serializeBytes (fun i => if i = 255 then 8 else 0) v hv ?_
    show (if v = 255 then (8 : Nat) else 0) < 256
    split <;> omega
  obtain ⟨Z, hroot, _⟩ := build_concentrated
    (parseCounts (serializeBytes (fun i => if i = 255 then 8 else 0))) 8 (by omega)
    (by rw [hparse 255 (by omega)]; simp)
    (fun i hi hne => by rw [hparse i hi]; simp [hne])
  refine ⟨dA,
    ⟨some (build (parseCounts (serializeBytes (fun i => if i = 255 then 8 else 0)))), []⟩,
    ⟨some (build (parseCounts (serializeBytes (fun i => if i = 255 then 8 else 0)))), []⟩,
    hA, ?_, ?_, by decide⟩
  · exact decProcess_header freshDecoder _ rfl rfl (length_serializeBytes _) (serializeBytes_lt _)
  · exact decProcess_255_shape _ Z 8 hroot

/-- Claim C5 (code bug): encoder output is not chunk-split stable.  With
threshold 3 and eight `0xFF` bytes, the frozen counts are concentrated on
byte 255, so the built tree gives `0xFF` the 1-bit code `[true]`
(`build_concentrated`).  One `process` call then `flush` emits nothing: the
16384-bit header plus eight 1-bit codes is a byte-aligned 16392 bits, so the
discarded recursive `process_buffer(false)` call at tree-build time packs
and throws it away.  Two 4-byte calls emit a 2049-byte stream: after the
first call the buffer holds 16388 bits (not aligned, nothing discarded) and
the second call packs 16392 bits. -/
theorem chunk_split_code_bug :
    ∃ (eA1 eA2 eB1 eB2 eB3 : HuffmanEncoder) (out2 : List Nat),
      HuffmanEncoder.process (freshEncoder 3) (List.replicate 8 255) = .ok ([], eA1) ∧
      HuffmanEncoder.flush eA1 = .ok ([], eA2) ∧
      HuffmanEncoder.process (freshEncoder 3) (List.replicate 4 255) = .ok ([], eB1) ∧
      HuffmanEncoder.process eB1 (List.replicate 4 255) = .ok (out2, eB2) ∧
      HuffmanEncoder.flush eB2 = .ok ([], eB3) ∧
      out2.length = 2049 ∧
      ([] ++ [] : List Nat) ≠ [] ++ out2 ++ [] := by
  have hc4 : ∀ v, pushAll (fun _ => 0) (List.replicate 4 255) v
      = if v = 255 then 4 else 0 := by
    intro v
    rw [pushAll_replicate 255 4 (fun _ => 0) v]
  obtain ⟨Z4, hroot4, hix4⟩ := build_concentrated (pushAll (fun _ => 0) (List.replicate 4 255)) 4
    (by omega) (by rw [hc4 255]; simp) (fun i hi hne => by rw [hc4 i]; simp [hne])
  have hA1 := process_fresh_trigger_aligned 3 (List.replicate 8 255) (by decide)
    (by rw [List.nil_append, encodeAll_rep_length, header_asVec_length]; omega)
  have hB1 := process_fresh_trigger_misaligned 3 (List.replicate 4 255) (by decide)
    (by rw [List.nil_append, encodeAll_rep_length, header_asVec_length, hix4]; decide)
  have hB2 := process_drained_some_aligned
    (build (pushAll (fun _ => 0) (List.replicate 4 255)))
    (pushAll (fun _ => 0) (List.replicate 4 255))
    (encodeAll (build (pushAll (fun _ => 0) (List.replicate 4 255))) (List.replicate 4 255)
      (([] : List Bool) ++ asVec (bytesToBools (serializeBytes
        (pushAll (fun _ => 0) (List.replicate 4 255))))))
    3 (List.replicate 4 255)
    (by rw [encodeAll_rep_length, encodeAll_rep_length, List.nil_append,
      header_asVec_length, hix4]; decide)
  have hlen : ((toU8s (encodeAll (build (pushAll (fun _ => 0) (List.replicate 4 255)))
      (List.replicate 4 255)
      (encodeAll (build (pushAll (fun _ => 0) (List.replicate 4 255))) (List.replicate 4 255)
        (([] : List Bool) ++ asVec (bytesToBools (serializeBytes
          (pushAll (fun _ => 0) (List.replicate 4 255)))))))).reverse).length = 2049 := by
    rw [List.length_reverse, length_toU8s, encodeAll_rep_length, encodeAll_rep_length,
      List.nil_append, header_asVec_length, hix4]
    decide
  refine ⟨_, _, _, _, _, _, hA1,
    flush_drained (build (pushAll (fun _ => 0) (List.replicate 8 255)))
      (pushAll (fun _ => 0) (List.replicate 8 255)) 3,
    hB1, hB2,
    flush_drained (build (pushAll (fun _ => 0) (List.replicate 4 255)))
      (pushAll (fun _ => 0) (List.replicate 4 255)) 3,
    hlen, ?_⟩
  intro h
  have h2 := congrArg List.length h
  rw [List.length_append, List.length_append, List.length_append, hlen] at h2
  simp at h2

end Sigdig
